import Mathlib

/-!
Verification of the memory-mcp-server engine against its specification.

The JavaScript sources are shallowly embedded: JS strings become `List Char`
(so that all string operations compute by structural recursion), JS finite
numbers become `ℚ`, millisecond epoch timestamps become `ℤ`, and fallible
operations return `Option`/`Bool` results.  External collaborators that the
engine only calls through a narrow interface — the jieba keyword extractor,
the vm2 sandbox, `Math.random()`, and the modality normalizer — are passed in
as explicit function/value parameters, exactly at the call sites where the
source invokes them.  `Array.prototype.sort` with a comparator over a total
preorder is stable (ECMA-262, as implemented by V8); its output is therefore
the unique stable sort, modelled here by a structurally recursive stable
insertion sort `sortByDesc`.
-/

namespace MemServer

/-- A JS string, as a list of characters (kernel-computable). -/
abbrev JSStr := List Char

/-- ASCII whitespace test used to model `String.prototype.trim` for the
character sets occurring in this development. -/
def jsWhitespace (c : Char) : Bool :=
  c = ' ' || c = '\t' || c = '\n' || c = '\r'

/-- Model of `String.prototype.trim` (ASCII whitespace). -/
def jsTrim (s : JSStr) : JSStr :=
  ((s.dropWhile jsWhitespace).reverse.dropWhile jsWhitespace).reverse

/-- Model of `String.prototype.toLowerCase` (ASCII case mapping, identity on
other characters — the mapping JS applies to the ASCII/CJK strings this
program manipulates). -/
def jsToLower (s : JSStr) : JSStr := s.map Char.toLower

/-- JS truthiness of an optional string (`undefined`/missing and `''` are
falsy). -/
def jsStrTruthy : Option JSStr → Bool
  | none => false
  | some s => !s.isEmpty

/-- `{word, weight}` keyword record (src/src/memory/short-term.js and
src/src/utils/lru-cache.js). -/
structure Keyword where
  word : JSStr
  weight : ℚ
deriving Repr, DecidableEq

/-- A possibly-malformed keyword entry as the defensive JS code sees it:
`word = none` models a `null` entry or a non-string `word` field, and
`weight = none` models a non-finite `weight` (the code substitutes `1`). -/
structure RawKeyword where
  word : Option JSStr
  weight : Option ℚ
deriving Repr, DecidableEq

/-- Opaque modality/attachment value (the engines treat it as a value type;
none of the verified claims inspects its contents). -/
structure Modality where
  payload : JSStr
deriving Repr, DecidableEq

/-- A hydrated short-term memory record (the fields of the objects stored in
`ShortTermMemoryManager.memories`; the legacy `attachments` alias of
`modalities` is not duplicated here). -/
structure Memory where
  text : JSStr
  keywords : List Keyword
  score : ℚ
  conversation_id : JSStr
  time_stamp : ℤ
  modalities : List Modality
deriving Repr, DecidableEq

/-- First value bound to `key` in an insertion-ordered association list;
models lookups in a JS `Map` / plain object used as a dictionary. -/
def assocFind {β : Type} (key : JSStr) : List (JSStr × β) → Option β
  | [] => none
  | (k, v) :: rest => if k = key then some v else assocFind key rest

/-- In-place mutation of the binding of `key`: a JS `Map` holds at most one
binding per key, so updating the first binding models
`map.get(key).field = …`. -/
def updateFirst {β : Type} (f : β → β) (key : JSStr) :
    List (JSStr × β) → List (JSStr × β)
  | [] => []
  | (k, v) :: rest =>
    if k = key then (k, f v) :: rest else (k, v) :: updateFirst f key rest

/-- Stable insertion (descending by `key`) of one element: `a` is placed
before the first element whose key is `≤ key a`, i.e. after every
strictly-greater element and before equals — the position a stable
descending sort gives an element that arrives after the existing ones. -/
def insertByDesc {α : Type} (key : α → ℚ) (a : α) : List α → List α
  | [] => [a]
  | b :: rest => if key b ≤ key a then a :: b :: rest else b :: insertByDesc key a rest

/-- Stable sort, descending by `key`: the unique output of
`Array.prototype.sort((x, y) => key(y) - key(x))` (stable per ECMA-262). -/
def sortByDesc {α : Type} (key : α → ℚ) : List α → List α
  | [] => []
  | a :: rest => insertByDesc key a (sortByDesc key rest)

-- ---------------------------------------------------------------------------
-- src/src/utils/lru-cache.js : deduplicateKeywords (lines 247-277)
-- ---------------------------------------------------------------------------

/-- The normalized map key the code computes: `kw.word.trim().toLowerCase()`. -/
def normKey (w : JSStr) : JSStr := jsToLower (jsTrim w)

/-- One iteration of the `for (const kw of keywords)` loop of
`deduplicateKeywords`: skip invalid entries and empty normalized words,
otherwise merge into the insertion-ordered map keyed by the normalized word,
keeping `Math.max` of the weights (the stored `word` keeps the first
occurrence's original spelling, as `keywordMap.set(word, {word: kw.word, …})`
does). -/
def dedupInsert (m : List (JSStr × Keyword)) (kw : RawKeyword) : List (JSStr × Keyword) :=
  match kw.word with
  | none => m
  | some w0 =>
    let word := normKey w0
    if word.isEmpty then m
    else
      let weight := kw.weight.getD 1
      match assocFind word m with
      | some _ => updateFirst (fun kw0 => ⟨kw0.word, max kw0.weight weight⟩) word m
      | none => m ++ [(word, ⟨w0, weight⟩)]

/-- `deduplicateKeywords` (src/src/utils/lru-cache.js lines 247-277):
`Array.isArray` guard elided by typing the input as a list; fold the entries
into the map, then return the values sorted by weight descending. -/
def deduplicateKeywords (keywords : List RawKeyword) : List Keyword :=
  sortByDesc (fun kw => kw.weight) ((keywords.foldl dedupInsert []).map Prod.snd)

/-- The map key an input entry contributes to, if any: `none` for invalid
entries and for words blank after trim. -/
def dedupKey (kw : RawKeyword) : Option JSStr :=
  match kw.word with
  | none => none
  | some w0 => if (normKey w0).isEmpty then none else some (normKey w0)

/-- The effective weights (`kw.weight` or the default 1) of the entries
contributing to key `k`, in input order. -/
def effWeights (ks : List RawKeyword) (k : JSStr) : List ℚ :=
  ks.filterMap fun kw =>
    if dedupKey kw = some k then some (kw.weight.getD 1) else none

/-- Running maximum over a nonempty list, seeded with its head. -/
def maxList1 (w : ℚ) (ws : List ℚ) : ℚ := ws.foldl max w

-- ---------------------------------------------------------------------------
-- src/src/triggers/matcher.js : executeSandboxed / evaluateTrigger
-- ---------------------------------------------------------------------------

/-- A JS runtime value, to the precision needed for `Boolean(result)`. -/
inductive JSValue where
  | vUndefined
  | vNull
  | vBool (b : Bool)
  | vNum (q : ℚ)
  | vNaN
  | vStr (s : JSStr)
  | vObj
deriving Repr, DecidableEq

/-- `Boolean(v)` coercion. -/
def JSValue.toBool : JSValue → Bool
  | .vUndefined => false
  | .vNull => false
  | .vBool b => b
  | .vNum q => !(decide (q = 0))
  | .vNaN => false
  | .vStr s => !s.isEmpty
  | .vObj => true

/-- The `{result, error}` pair `executeSandboxed` resolves with: the vm2 run
itself is external, but the wrapper's `try/catch` guarantees every outcome is
captured into this shape (`error = some msg` covers compile errors, runtime
exceptions and the 1s timeout). -/
structure SandboxResult where
  result : JSValue
  error : Option JSStr
deriving Repr, DecidableEq

/-- `evaluateTrigger` (src/src/triggers/matcher.js lines 66-109).
`sandboxRun` is the outcome `executeSandboxed` resolves with for this trigger
and context.  The guard `!triggerCode || typeof triggerCode !== 'string'`
rejects every non-string value and the empty string; a sandbox `error` is
logged and mapped to `false`; otherwise the result is coerced with
`Boolean(result)`.  The function is total — the embedding has no exception
channel, mirroring the source's outer `try/catch`. -/
def evaluateTrigger (sandboxRun : SandboxResult) (triggerCode : JSValue) : Bool :=
  match triggerCode with
  | .vStr s =>
    if s.isEmpty then false
    else
      match sandboxRun.error with
      | some _ => false
      | none => sandboxRun.result.toBool
  | _ => false

-- ---------------------------------------------------------------------------
-- src/src/memory/short-term.js : constants
-- ---------------------------------------------------------------------------

def RELEVANCE_THRESHOLD : ℚ := 5
def SCORE_INCREMENT_TOP : ℚ := 5
def SCORE_INCREMENT_NEXT : ℚ := 2
def KEYWORD_MIN_WEIGHT : ℚ := 0.8
def MEMORY_TTL_MS : ℤ := 365 * 24 * 60 * 60 * 1000
def CLEANUP_MIN_SCORE_THRESHOLD : ℚ := -5
def MIN_RETAINED_MEMORIES : ℕ := 512
def MIN_TIME_DIFFERENCE_ANY_MS : ℤ := 10 * 60 * 1000
def MIN_TIME_DIFFERENCE_SAME_CONVERSATION_MS : ℤ := 20 * 60 * 1000
def MAX_TOP_RELEVANT : ℕ := 2
def MAX_NEXT_RELEVANT : ℕ := 1
def MAX_RANDOM_FLASHBACK : ℕ := 2
def BASE_RANDOM_WEIGHT : ℚ := 1
def RANDOM_WEIGHT_RECENCY_FACTOR : ℚ := 1.7
def RANDOM_WEIGHT_SCORE_FACTOR : ℚ := 1.1
def MAX_SCORE_FOR_RANDOM_WEIGHT : ℚ := 50

-- ---------------------------------------------------------------------------
-- src/src/memory/short-term.js : loadMemories (lines 198-261)
-- ---------------------------------------------------------------------------

/-- What `new Date` makes of the `mem.time_stamp ?? mem.timestamp ??
mem.timeStamp` chain: `absent` models a missing/falsy source (the code then
uses `new Date()`, the load time); `parsable t` a value parsing to epoch
time `t`; `unparsable` a value for which `Date.getTime()` is `NaN`. -/
inductive RawTimestamp where
  | absent
  | parsable (t : ℤ)
  | unparsable
deriving Repr, DecidableEq

/-- The fields `loadMemories` reads off one persisted record.  `none` models
a missing field or one of the wrong runtime type; `modalities` is the value
of `mem.modalities ?? mem.attachments ?? []`. -/
structure RawShortTermMemory where
  text : Option JSStr
  time_stamp : RawTimestamp
  keywords : Option (List RawKeyword)
  score : Option ℚ
  conversation_id : Option JSStr
  modalities : List Modality
deriving Repr, DecidableEq

/-- One element of the persisted array: `invalid` models `null`/non-object
entries. -/
inductive RawRecord where
  | invalid
  | obj (m : RawShortTermMemory)
deriving Repr, DecidableEq

/-- One iteration of the `memories.forEach` body of `loadMemories`: `none`
means the entry is skipped (with a logged warning), `some` is the normalized
record pushed onto `normalizedMemories`.  Entries that are not objects or
whose `text` is missing/blank are skipped; an unparsable timestamp is
replaced by the load time `now`; invalid keywords are dropped and non-finite
keyword weights default to `1`; a non-finite score defaults to `0`; a missing
`conversation_id` defaults to `"default"`; `norm` is `normalizeModalities`. -/
def hydrateRecord (norm : List Modality → List Modality) (now : ℤ) :
    RawRecord → Option Memory
  | .invalid => none
  | .obj m =>
    let text := m.text.getD []
    if (jsTrim text).isEmpty then none
    else
      let ts : ℤ :=
        match m.time_stamp with
        | .absent => now
        | .parsable t => t
        | .unparsable => now
      let keywords := (m.keywords.getD []).filterMap fun kw =>
        match kw.word with
        | none => none
        | some w => some (⟨w, kw.weight.getD 1⟩ : Keyword)
      some { text := text, keywords := keywords, score := m.score.getD 0,
             conversation_id := m.conversation_id.getD "default".toList,
             time_stamp := ts, modalities := norm m.modalities }

/-- `loadMemories` (src/src/memory/short-term.js lines 198-261): the
`forEach`/push loop over the persisted array (the non-array guard resets the
store to `[]` and is elided by typing the input as a list). -/
def loadMemories (norm : List Modality → List Modality) (now : ℤ)
    (records : List RawRecord) : List Memory :=
  records.foldl
    (fun acc r => acc ++ (hydrateRecord norm now r).toList) []

/-- Follows the claim words (spec §4.1: "malformed entries (non-object,
missing text, unparsable timestamp) are dropped"): like `hydrateRecord`, but
an entry whose timestamp is unparsable is dropped rather than repaired. -/
def hydrateRecordClaimed (norm : List Modality → List Modality) (now : ℤ) :
    RawRecord → Option Memory
  | .invalid => none
  | .obj m =>
    if m.time_stamp = .unparsable then none
    else hydrateRecord norm now (.obj m)

/-- Follows the claim words: `loadMemories` as the claim describes it. -/
def loadMemoriesClaimed (norm : List Modality → List Modality) (now : ℤ)
    (records : List RawRecord) : List Memory :=
  records.filterMap (hydrateRecordClaimed norm now)

/-- A well-formed record except for its unparsable timestamp. -/
def badTsEntry : RawShortTermMemory :=
  { text := some "hi".toList, time_stamp := .unparsable, keywords := some [],
    score := some 0, conversation_id := some "c".toList, modalities := [] }

-- ---------------------------------------------------------------------------
-- src/src/nlp/jieba.js + short-term.js : keyword extraction
-- ---------------------------------------------------------------------------

/-- The external `jieba.extract` of '@node-rs/jieba' (text, count) ↦ weighted
keywords. -/
abbrev Extractor := JSStr → ℕ → List Keyword

/-- `extractKeywords` (src/src/nlp/jieba.js lines 14-31): empty/non-string
guard, then the external extraction with each weight scaled by 5. -/
def extractKeywords (jieba : Extractor) (text : JSStr) (num : ℕ) : List Keyword :=
  if text.isEmpty then []
  else (jieba text num).map fun kw => ⟨kw.word, kw.weight * 5⟩

/-- A message as the engine reads it (`name` and `timestamp` are the optional
fields used by `createContextSnapshot` and `addMemory`). -/
structure Message where
  role : JSStr
  content : JSStr
  name : Option JSStr := none
  timestamp : Option ℤ := none
deriving Repr, DecidableEq

/-- `keywordMap[kw.word] = w + (keywordMap[kw.word] || 0)`: add `w` to the
present binding, or append a first binding (JS object keys iterate in
insertion order for the non-numeric keys in play). -/
def assocBump (m : List (JSStr × ℚ)) (word : JSStr) (w : ℚ) : List (JSStr × ℚ) :=
  match assocFind word m with
  | some _ => updateFirst (fun q => q + w) word m
  | none => m ++ [(word, w)]

/-- `weights[message.role] || 1.0`: the role's weight when bound and truthy
(nonzero), else `1`. -/
def roleMultiplier (weights : List (JSStr × ℚ)) (role : JSStr) : ℚ :=
  match assocFind role weights with
  | some w => if w = 0 then 1 else w
  | none => 1

/-- `extractMessageKeywords` (src/src/memory/short-term.js lines 277-298):
per non-blank message, extract up to 72 keywords, scale by the role
multiplier, sum into `keywordMap`; then drop entries below
`KEYWORD_MIN_WEIGHT`, sort by weight descending and keep the first 72. -/
def extractMessageKeywords (jieba : Extractor) (messages : List Message)
    (weights : List (JSStr × ℚ)) : List Keyword :=
  let keywordMap := messages.foldl
    (fun m message =>
      if (jsTrim message.content).isEmpty then m
      else
        let multiplier := roleMultiplier weights message.role
        (extractKeywords jieba message.content 72).foldl
          (fun m2 kw => assocBump m2 kw.word (kw.weight * multiplier)) m) []
  ((sortByDesc (fun kw => kw.weight)
      ((keywordMap.map fun p => (⟨p.1, p.2⟩ : Keyword)).filter
        fun kw => decide (KEYWORD_MIN_WEIGHT ≤ kw.weight)))).take 72

-- ---------------------------------------------------------------------------
-- src/src/memory/short-term.js : calculateRelevance, keyword part
-- (lines 318-351)
-- ---------------------------------------------------------------------------

/-- The `memoryKeywordMap` of `calculateRelevance`: fold the memory's own
keywords followed by its modality-derived keywords (the caller concatenates
them, as `[...memoryKeywordsArray, ...modalityKeywords]` does), summing
weights of entries with an identical `word` key. -/
def buildMemoryKeywordMap (memoryKws : List Keyword) : List (JSStr × ℚ) :=
  memoryKws.foldl (fun m kw => assocBump m kw.word kw.weight) []

/-- One iteration of the `for (const currentKw of currentKeywords)` loop:
skip words absent from `memoryKeywordMap` (exact JS string equality),
otherwise add `currentWeight + memoryWeight`. -/
def matchStep (mp : List (JSStr × ℚ)) (acc : ℚ) (ckw : Keyword) : ℚ :=
  match assocFind ckw.word mp with
  | some mw => acc + (ckw.weight + mw)
  | none => acc

/-- The `keywordMatchScore` accumulation of `calculateRelevance`
(src/src/memory/short-term.js lines 337-350). -/
def keywordMatchScore (memoryKws : List Keyword) (currentKws : List Keyword) : ℚ :=
  currentKws.foldl (matchStep (buildMemoryKeywordMap memoryKws)) 0

/-- The total weight the memory map assigns to exactly-spelled word `w`:
the sum of the weights of the entries of `kws` whose `word` equals `w`. -/
def aggWeight (kws : List Keyword) (w : JSStr) : ℚ :=
  ((kws.filter fun k => decide (k.word = w)).map fun k => k.weight).sum

/-- Follows the claim words: the case-insensitive aggregate weight for `w`. -/
def aggWeightCI (kws : List Keyword) (w : JSStr) : ℚ :=
  ((kws.filter fun k => decide (jsToLower k.word = jsToLower w)).map
    fun k => k.weight).sum

/-- Follows the claim words ("the sum over words present in both the query
keyword set and the memory aggregated keyword set of (query weight + memory
weight), where word membership is compared case-insensitively"). -/
def keywordMatchScoreClaimed (memoryKws : List Keyword)
    (currentKws : List Keyword) : ℚ :=
  ((currentKws.filter fun c =>
      memoryKws.any fun k => decide (jsToLower k.word = jsToLower c.word)).map
    fun c => c.weight + aggWeightCI memoryKws c.word).sum

-- ---------------------------------------------------------------------------
-- src/src/memory/short-term.js : deleteMemories (lines 596-606)
-- ---------------------------------------------------------------------------

/-- The `pattern` argument of `deleteMemories`: a `RegExp` is opaque to the
code, which only calls `pattern.test(text)`, so it is modelled by its test
predicate; a string is matched by `String.prototype.includes`. -/
inductive DeletePattern where
  | regex (test : JSStr → Bool)
  | str (s : JSStr)

/-- `String.prototype.includes`: contiguous-substring containment. -/
def jsIncludes (text pat : JSStr) : Bool := decide (pat <:+: text)

/-- Whether `deleteMemories` considers `text` a match for `pattern`. -/
def patternMatches : DeletePattern → JSStr → Bool
  | .regex t, text => t text
  | .str s, text => jsIncludes text s

/-- `deleteMemories` (src/src/memory/short-term.js lines 596-606): keep the
non-matching records, return them with `oldLength - newLength`. -/
def deleteMemories (mems : List Memory) (pattern : DeletePattern) :
    List Memory × ℕ :=
  let kept := mems.filter fun mem => !patternMatches pattern mem.text
  (kept, mems.length - kept.length)

-- ---------------------------------------------------------------------------
-- src/src/memory/short-term.js : cleanup (lines 613-655)
-- ---------------------------------------------------------------------------

/-- The partition test of `cleanup`: a record fails when
`mem.time_stamp.getTime() < currentTimeStamp - MEMORY_TTL_MS` (strictly more
than a year old) and otherwise passes iff its relevance is at least
`CLEANUP_MIN_SCORE_THRESHOLD`.  `rel` abstracts
`calculateRelevance(mem, [], currentTimeStamp, {})` (whose time-decay term
uses transcendental `Math.exp` arithmetic). -/
def cleanupPasses (rel : Memory → ℚ) (now : ℤ) (mem : Memory) : Bool :=
  !(decide (mem.time_stamp < now - MEMORY_TTL_MS)) &&
    decide (CLEANUP_MIN_SCORE_THRESHOLD ≤ rel mem)

/-- `cleanup` (src/src/memory/short-term.js lines 613-655): partition; keep
the passing records if at least `MIN_RETAINED_MEMORIES` of them, else top up
with the failing records sorted by relevance descending. -/
def cleanup (rel : Memory → ℚ) (now : ℤ) (mems : List Memory) : List Memory :=
  let passingMemories := mems.filter (cleanupPasses rel now)
  let failingMemories := mems.filter fun m => !cleanupPasses rel now m
  if MIN_RETAINED_MEMORIES ≤ passingMemories.length then passingMemories
  else
    passingMemories ++
      (sortByDesc rel failingMemories).take
        (MIN_RETAINED_MEMORIES - passingMemories.length)

/-- Follows the claim words: the partition test with a STRICT "younger than
one year" age requirement (`now - ts < 1y`), where the code keeps records
aged exactly one year (`ts < now - 1y` fails only strictly older ones). -/
def cleanupPassesClaimed (rel : Memory → ℚ) (now : ℤ) (mem : Memory) : Bool :=
  decide (now - mem.time_stamp < MEMORY_TTL_MS) &&
    decide (CLEANUP_MIN_SCORE_THRESHOLD ≤ rel mem)

/-- Follows the claim words: `cleanup` over the claimed partition. -/
def cleanupClaimed (rel : Memory → ℚ) (now : ℤ) (mems : List Memory) :
    List Memory :=
  let passingMemories := mems.filter (cleanupPassesClaimed rel now)
  let failingMemories := mems.filter fun m => !cleanupPassesClaimed rel now m
  if MIN_RETAINED_MEMORIES ≤ passingMemories.length then passingMemories
  else
    passingMemories ++
      (sortByDesc rel failingMemories).take
        (MIN_RETAINED_MEMORIES - passingMemories.length)

/-- A fresh record (age 0 at time `MEMORY_TTL_MS`, score 0).  Its relevance
under `calculateRelevance(mem, [], now, {})` is `0 + 0 - 15·(1 - e⁰) = 0`. -/
def freshMem : Memory := ⟨"m".toList, [], 0, "c".toList, MEMORY_TTL_MS, []⟩

/-- A record aged exactly one year at time `MEMORY_TTL_MS`, with score 15.
Its relevance under `calculateRelevance(mem, [], now, {})` is
`0 + 15 - 15·(1 - e^(-MEMORY_TTL_MS·2e-9))`: the exponent is `-63.072`,
`e^(-63.072) ≈ 4.5e-28` vanishes in IEEE-754 doubles (`1 - x` rounds to `1`),
so the time penalty is exactly 15 and the relevance exactly 0. -/
def boundaryMem : Memory := ⟨"b".toList, [], 15, "c".toList, 0, []⟩

/-- 512 fresh records plus the one-year-old boundary record.  On this store
the constant-zero valuation is exactly the relevance `calculateRelevance`
computes for every record (see `freshMem` and `boundaryMem`). -/
def boundaryStore : List Memory := List.replicate 512 freshMem ++ [boundaryMem]

-- ---------------------------------------------------------------------------
-- src/src/nlp/keywords.js : createContextSnapshot (lines 151-164)
-- ---------------------------------------------------------------------------

/-- `Array.prototype.join('\n')`. -/
def joinNewline : List JSStr → JSStr
  | [] => []
  | [s] => s
  | s :: rest => s ++ '\n' :: joinNewline rest

/-- `createContextSnapshot` (src/src/nlp/keywords.js lines 151-164) as called
by `addMemory` (no `depth`, so all messages are rendered): each message
becomes `"speaker: content"` with `speaker = msg.name || msg.role`. -/
def createContextSnapshot (messages : List Message) : JSStr :=
  match messages with
  | [] => []
  | _ =>
    joinNewline (messages.map fun msg =>
      (match msg.name with
        | some n => if n.isEmpty then msg.role else n
        | none => msg.role) ++ ':' :: ' ' :: msg.content)

-- ---------------------------------------------------------------------------
-- src/src/memory/short-term.js : addMemory (lines 558-589)
-- ---------------------------------------------------------------------------

namespace ShortTerm

/-- `addMemory` (src/src/memory/short-term.js lines 558-589).  Fails without
throwing when `messages` is empty or the rendered transcript is blank.
Otherwise pushes a record whose `time_stamp` is
`new Date(lastMessage.timestamp || Date.now())` — the last message's truthy
(nonzero) timestamp when present, else the call time `now` —, whose `score`
is `0` and whose modalities are normalized by the external `norm`
(`normalizeModalities`). -/
def addMemory (jieba : Extractor) (norm : List Modality → List Modality)
    (now : ℤ) (messages : List Message) (conversationId : JSStr)
    (roleWeights : List (JSStr × ℚ)) (optModalities : List Modality)
    (mems : List Memory) : Bool × List Memory :=
  match messages with
  | [] => (false, mems)
  | m0 :: rest =>
    let keywords := extractMessageKeywords jieba (m0 :: rest) roleWeights
    let contextSnapshot := createContextSnapshot (m0 :: rest)
    if (jsTrim contextSnapshot).isEmpty then (false, mems)
    else
      let lastMessage := (m0 :: rest).getLast (List.cons_ne_nil m0 rest)
      let ts : ℤ :=
        match lastMessage.timestamp with
        | some t => if t = 0 then now else t
        | none => now
      (true,
        mems ++ [{ time_stamp := ts, text := contextSnapshot,
                   keywords := keywords, score := 0,
                   conversation_id := conversationId,
                   modalities := norm optModalities }])

end ShortTerm

-- ---------------------------------------------------------------------------
-- src/src/memory/short-term.js : searchRelevantMemories (lines 414-549)
-- and selectOneWeightedRandom (lines 382-405)
-- ---------------------------------------------------------------------------

/-- A `{memory, relevance, index}` element of `scoredMemories` /
`finalTopRelevant` / `finalNextRelevant` / `finalRandomFlashback`. -/
structure ScoredItem where
  memory : Memory
  relevance : ℚ
  index : ℕ
deriving Repr, DecidableEq

/-- A `{memory, index}` element of `availableForRandomPool`. -/
structure IndexedMemory where
  memory : Memory
  index : ℕ
deriving Repr, DecidableEq

/-- `candidate.memory.conversation_id === conversationId &&
currentTimeStamp - candidate.memory.time_stamp.getTime() <
MIN_TIME_DIFFERENCE_SAME_CONVERSATION_MS`. -/
def tooRecentSameConversation (now : ℤ) (conversationId : JSStr) (mem : Memory) : Bool :=
  decide (mem.conversation_id = conversationId) &&
    decide (now - mem.time_stamp < MIN_TIME_DIFFERENCE_SAME_CONVERSATION_MS)

/-- The `isTooCloseToSelected` scan: some already-selected item lies within
`MIN_TIME_DIFFERENCE_ANY_MS` of the candidate. -/
def tooCloseToSelected (mem : Memory) (selected : List ScoredItem) : Bool :=
  selected.any fun s =>
    decide (|mem.time_stamp - s.memory.time_stamp| < MIN_TIME_DIFFERENCE_ANY_MS)

/-- The `for (const candidateMemory of scoredMemories)` selection loop
(lines 445-479), with its state `(finalTopRelevant, finalNextRelevant,
allSelectedRelevantMemories)`: break once both lists are full; skip
same-conversation recent candidates and candidates too close to any
already-selected one; otherwise fill top, then next. -/
def selectRelevant (now : ℤ) (conversationId : JSStr) :
    List ScoredItem → List ScoredItem → List ScoredItem → List ScoredItem →
    List ScoredItem × List ScoredItem × List ScoredItem
  | [], top, next, allSel => (top, next, allSel)
  | c :: rest, top, next, allSel =>
    if MAX_TOP_RELEVANT ≤ top.length ∧ MAX_NEXT_RELEVANT ≤ next.length then
      (top, next, allSel)
    else if tooRecentSameConversation now conversationId c.memory then
      selectRelevant now conversationId rest top next allSel
    else if tooCloseToSelected c.memory allSel then
      selectRelevant now conversationId rest top next allSel
    else if top.length < MAX_TOP_RELEVANT then
      selectRelevant now conversationId rest (top ++ [c]) next (allSel ++ [c])
    else if next.length < MAX_NEXT_RELEVANT then
      selectRelevant now conversationId rest top (next ++ [c]) (allSel ++ [c])
    else
      selectRelevant now conversationId rest top next allSel

/-- The `currentCandidates` filter of the flashback loop (lines 488-504):
not a recent same-conversation memory, and not within
`MIN_TIME_DIFFERENCE_ANY_MS` of any previously selected item (relevant or
flashback). -/
def flashbackEligible (now : ℤ) (conversationId : JSStr)
    (prior : List ScoredItem) (c : IndexedMemory) : Bool :=
  !(tooRecentSameConversation now conversationId c.memory) &&
    !(prior.any fun s =>
      decide (|c.memory.time_stamp - s.memory.time_stamp| < MIN_TIME_DIFFERENCE_ANY_MS))

/-- The per-candidate weight of the flashback draw (lines 509-517),
including the final `Math.max(0, weight)`. -/
def randomWeight (now : ℤ) (mem : Memory) : ℚ :=
  let ageFactor := max 0 (1 - ((now - mem.time_stamp : ℤ) : ℚ) / (MEMORY_TTL_MS : ℚ))
  let cappedScore := max 0 (min mem.score MAX_SCORE_FOR_RANDOM_WEIGHT)
  let normalizedScoreFactor :=
    if 0 < MAX_SCORE_FOR_RANDOM_WEIGHT then cappedScore / MAX_SCORE_FOR_RANDOM_WEIGHT else 0
  max 0 (BASE_RANDOM_WEIGHT + ageFactor * RANDOM_WEIGHT_RECENCY_FACTOR +
    normalizedScoreFactor * RANDOM_WEIGHT_SCORE_FACTOR)

/-- The cumulative-weight scan of `selectOneWeightedRandom` (lines 393-402):
first item whose running total reaches `randomVal`; `none` when the loop
falls through. -/
def swrScan {α : Type} (randomVal : ℚ) : ℚ → List (α × ℚ) → Option α
  | _, [] => none
  | cum, (a, w) :: rest =>
    if randomVal ≤ cum + max 0 w then some a
    else swrScan randomVal (cum + max 0 w) rest

/-- `selectOneWeightedRandom` (src/src/memory/short-term.js lines 382-405).
`r` is the `Math.random()` draw of this call (one draw per call in the
source, on either branch).  When the total weight is non-positive the code
indexes by `Math.floor(r * items.length)` — an out-of-range JS index yields
`undefined`, modelled by `none`; otherwise the cumulative scan runs, with
`items[items.length - 1]` as fallback. -/
def selectOneWeightedRandom {α : Type} (r : ℚ) (items : List α)
    (weights : List ℚ) : Option α :=
  if items.isEmpty || !(decide (items.length = weights.length)) then none
  else if (weights.map fun w => max 0 w).sum ≤ 0 then
    if Rat.floor (r * items.length) < 0 then none
    else items.get? (Rat.floor (r * items.length)).toNat
  else
    match swrScan (r * (weights.map fun w => max 0 w).sum) 0
        (items.zip weights) with
    | some a => some a
    | none => items.getLast?

/-- The `for (let i = 0; i < MAX_RANDOM_FLASHBACK && pool.length; i++)` loop
(lines 487-528): filter the eligible candidates, draw one by cumulative
weight (the `k`-th draw uses `rand k`), record it with its relevance
(`selectedRandomItem.relevance = calculateRelevance(...)`, abstracted by
`rel`), and remove it from the pool. -/
def flashbackLoop (rel : Memory → ℚ) (rand : ℕ → ℚ) (now : ℤ)
    (conversationId : JSStr) :
    ℕ → ℕ → List IndexedMemory → List ScoredItem → List ScoredItem →
    List ScoredItem
  | 0, _, _, _, flash => flash
  | fuel + 1, k, pool, allSelRelevant, flash =>
    if pool.isEmpty then flash
    else if (pool.filter (flashbackEligible now conversationId
        (allSelRelevant ++ flash))).isEmpty then flash
    else
      match selectOneWeightedRandom (rand k)
          (pool.filter
            (flashbackEligible now conversationId (allSelRelevant ++ flash)))
          ((pool.filter
              (flashbackEligible now conversationId (allSelRelevant ++ flash))).map
            fun item => randomWeight now item.memory) with
      | none => flash
      | some item =>
        flashbackLoop rel rand now conversationId fuel (k + 1)
          (pool.filter fun p => !(decide (p.index = item.index)))
          allSelRelevant
          (flash ++ [⟨item.memory, rel item.memory, item.index⟩])

/-- One reinforcement step (lines 531-542): bump the store entry at the
item's index by `inc`, capped at 100; a missing index is a no-op
(`if (memoryToUpdate)`). -/
def reinforceOne (inc : ℚ) (mems : List Memory) (item : ScoredItem) : List Memory :=
  match mems.get? item.index with
  | some m => mems.set item.index { m with score := min (m.score + inc) 100 }
  | none => mems

/-- Reinforce every selected item (`forEach`). -/
def reinforce (inc : ℚ) (mems : List Memory) (selected : List ScoredItem) :
    List Memory :=
  selected.foldl (reinforceOne inc) mems

/-- The `{topRelevant, nextRelevant, randomFlashback}` return value. -/
structure SearchResult where
  topRelevant : List ScoredItem
  nextRelevant : List ScoredItem
  randomFlashback : List ScoredItem
deriving Repr, DecidableEq

/-- `searchRelevantMemories` (src/src/memory/short-term.js lines 414-549).
`rel` abstracts `calculateRelevance(mem, currentKeywords, currentTimeStamp,
searchOptions)` — fixed per call, applied pointwise as the source does —
and `rand` the successive `Math.random()` draws.  Score all records, keep
relevance ≥ `RELEVANCE_THRESHOLD`, sort descending (stably, as
`Array.prototype.sort` does), run the greedy top/next selection, then the
weighted random flashback draw over the unselected records, and finally
reinforce the top and next picks in the store. -/
def searchRelevantMemories (rel : Memory → ℚ) (rand : ℕ → ℚ) (now : ℤ)
    (conversationId : JSStr) (mems : List Memory) :
    SearchResult × List Memory :=
  let scoredMemories :=
    sortByDesc (fun item => item.relevance)
      (((mems.enum).map fun p => (⟨p.2, rel p.2, p.1⟩ : ScoredItem)).filter
        fun item => decide (RELEVANCE_THRESHOLD ≤ item.relevance))
  let sel := selectRelevant now conversationId scoredMemories [] [] []
  let finalTopRelevant := sel.1
  let finalNextRelevant := sel.2.1
  let allSelectedRelevantMemories := sel.2.2
  let selectedIndices := allSelectedRelevantMemories.map fun s => s.index
  let availableForRandomPool :=
    ((mems.enum).map fun p => (⟨p.2, p.1⟩ : IndexedMemory)).filter
      fun item => !(selectedIndices.contains item.index)
  let finalRandomFlashback :=
    flashbackLoop rel rand now conversationId MAX_RANDOM_FLASHBACK 0
      availableForRandomPool allSelectedRelevantMemories []
  let mems1 := reinforce SCORE_INCREMENT_TOP mems finalTopRelevant
  let mems2 := reinforce SCORE_INCREMENT_NEXT mems1 finalNextRelevant
  (⟨finalTopRelevant, finalNextRelevant, finalRandomFlashback⟩, mems2)

/-- Two memories are at least `MIN_TIME_DIFFERENCE_ANY_MS` apart in time. -/
def FarApart (a b : Memory) : Prop :=
  MIN_TIME_DIFFERENCE_ANY_MS ≤ |a.time_stamp - b.time_stamp|

/-- The memory is not a too-recent record of the queried conversation:
either it belongs to another conversation or it is at least
`MIN_TIME_DIFFERENCE_SAME_CONVERSATION_MS` old at search time. -/
def ConvOk (now : ℤ) (conversationId : JSStr) (mem : Memory) : Prop :=
  ¬(mem.conversation_id = conversationId ∧
    now - mem.time_stamp < MIN_TIME_DIFFERENCE_SAME_CONVERSATION_MS)

-- ---------------------------------------------------------------------------
-- src/unnamed/part_005 (long-term.js) : LongTermMemoryManager
-- ---------------------------------------------------------------------------

/-- A stored long-term memory record. -/
structure LongTermMemory where
  name : JSStr
  prompt : JSStr
  trigger : JSStr
  createdAt : ℤ
  updatedAt : Option ℤ
  createdContext : JSStr
  updatedContext : Option JSStr
  modalities : List Modality
deriving Repr, DecidableEq

/-- The argument object of `LongTermMemoryManager.addMemory`; `none` models
a missing field (and `some []`, an empty string, is falsy like it). -/
structure LongTermMemoryInput where
  name : Option JSStr
  prompt : Option JSStr
  trigger : Option JSStr
  createdContext : Option JSStr
  modalities : List Modality
deriving Repr

/-- `findIndex` + `splice(index, 1)`: remove the first record with this
name. -/
def removeFirstByName (name : JSStr) : List LongTermMemory → List LongTermMemory
  | [] => []
  | m :: rest => if m.name = name then rest else m :: removeFirstByName name rest

namespace LongTerm

/-- `LongTermMemoryManager.addMemory` (src/unnamed/part_005 lines 156-194).
`triggerValid` is the `valid` field of the awaited
`testTriggerCondition(memory.trigger)` result (a vm2 run, external).
Missing/falsy `name`/`trigger`/`prompt` or an invalid trigger yield a
structured failure; otherwise the first record with the same name is
spliced out and the new record is pushed with `createdAt = now` and
`createdContext = memory.createdContext || ''`. -/
def addMemory (triggerValid : Bool) (norm : List Modality → List Modality)
    (now : ℤ) (memory : LongTermMemoryInput) (mems : List LongTermMemory) :
    Bool × List LongTermMemory :=
  if !(jsStrTruthy memory.name) || !(jsStrTruthy memory.trigger) ||
      !(jsStrTruthy memory.prompt) then
    (false, mems)
  else if !triggerValid then (false, mems)
  else
    let name := memory.name.getD []
    (true,
      removeFirstByName name mems ++
        [{ name := name, prompt := memory.prompt.getD [],
           trigger := memory.trigger.getD [], createdAt := now,
           updatedAt := none, createdContext := memory.createdContext.getD [],
           updatedContext := none, modalities := norm memory.modalities }])

/-- The update object of `updateMemory`: `none` models an `undefined` field;
`modalities` is present when either `updates.modalities` or
`updates.attachments` is. -/
structure Updates where
  trigger : Option JSStr
  prompt : Option JSStr
  updatedContext : Option JSStr
  modalities : Option (List Modality)
deriving Repr

/-- `LongTermMemoryManager.updateMemory` (src/unnamed/part_005 lines
205-242).  Unknown name is a structured failure; a truthy updated trigger is
re-validated first (`triggerValid` being that run's result); then the
present fields are merged into the record in place and `updatedAt = now` is
set.  The record's `name` is never modified. -/
def updateMemory (triggerValid : Bool) (norm : List Modality → List Modality)
    (now : ℤ) (name : JSStr) (updates : Updates)
    (mems : List LongTermMemory) : Bool × List LongTermMemory :=
  match mems.findIdx? (fun m => m.name = name) with
  | none => (false, mems)
  | some memoryIndex =>
    if jsStrTruthy updates.trigger && !triggerValid then (false, mems)
    else
      match mems.get? memoryIndex with
      | none => (false, mems)
      | some memory =>
        (true, mems.set memoryIndex
          { memory with
            trigger := updates.trigger.getD memory.trigger,
            prompt := updates.prompt.getD memory.prompt,
            updatedContext :=
              match updates.updatedContext with
              | some u => some u
              | none => memory.updatedContext,
            modalities :=
              match updates.modalities with
              | some ms => norm ms
              | none => memory.modalities,
            updatedAt := some now })

/-- `LongTermMemoryManager.deleteMemory` (src/unnamed/part_005 lines
249-253): filter out every record with this name; report whether the store
shrank. -/
def deleteMemory (name : JSStr) (mems : List LongTermMemory) :
    Bool × List LongTermMemory :=
  let newMems := mems.filter fun m => !(decide (m.name = name))
  (decide (newMems.length < mems.length), newMems)

end LongTerm

-- ---------------------------------------------------------------------------
-- Shared helper lemmas
-- ---------------------------------------------------------------------------

theorem insertByDesc_perm {α : Type} (key : α → ℚ) (a : α) (l : List α) :
    (insertByDesc key a l).Perm (a :: l) := by
  induction l with
  | nil => simp [insertByDesc]
  | cons b rest ih =>
    simp only [insertByDesc]
    split
    · exact List.Perm.refl _
    · exact (List.Perm.cons b ih).trans (List.Perm.swap a b rest)

theorem sortByDesc_perm {α : Type} (key : α → ℚ) (l : List α) :
    (sortByDesc key l).Perm l := by
  induction l with
  | nil => simp [sortByDesc]
  | cons a rest ih =>
    exact ((insertByDesc_perm key a _).trans (List.Perm.cons a ih))

theorem mem_sortByDesc {α : Type} {key : α → ℚ} {l : List α} {x : α} :
    x ∈ sortByDesc key l ↔ x ∈ l :=
  (sortByDesc_perm key l).mem_iff

theorem pairwise_insertByDesc {α : Type} {key : α → ℚ} {a : α} {l : List α}
    (h : l.Pairwise (fun x y => key y ≤ key x)) :
    (insertByDesc key a l).Pairwise (fun x y => key y ≤ key x) := by
  induction l with
  | nil => simp [insertByDesc]
  | cons b rest ih =>
    rw [List.pairwise_cons] at h
    simp only [insertByDesc]
    split
    · rename_i hba
      refine List.pairwise_cons.2 ⟨?_, List.pairwise_cons.2 ⟨h.1, h.2⟩⟩
      intro x hx
      rcases List.mem_cons.1 hx with rfl | hx
      · exact hba
      · exact le_trans (h.1 x hx) hba
    · rename_i hba
      refine List.pairwise_cons.2 ⟨?_, ih h.2⟩
      intro x hx
      rcases List.mem_cons.1 ((insertByDesc_perm key a rest).mem_iff.1 hx) with rfl | hx
      · exact le_of_lt (lt_of_not_le hba)
      · exact h.1 x hx

theorem pairwise_sortByDesc {α : Type} (key : α → ℚ) (l : List α) :
    (sortByDesc key l).Pairwise (fun x y => key y ≤ key x) := by
  induction l with
  | nil => simp [sortByDesc]
  | cons a rest ih => exact pairwise_insertByDesc ih

theorem length_filter_add_not {α : Type} (p : α → Bool) (l : List α) :
    (l.filter p).length + (l.filter fun a => !p a).length = l.length := by
  induction l with
  | nil => simp
  | cons a rest ih =>
    rw [List.filter_cons, List.filter_cons]
    cases h : p a <;> simp [h] <;> omega

-- ---------------------------------------------------------------------------
-- Claim C2
-- ---------------------------------------------------------------------------

/-- Claim C2: for every trigger script and sandbox outcome, `evaluateTrigger`
returns `false` whenever the sandbox reports any error (compile, runtime, or
timeout all surface as `error`), and otherwise returns the script result
coerced to boolean; the function is total (`Bool`-valued), so no exception
reaches the caller. -/
theorem C2_evaluateTrigger_fail_closed :
    ∀ (run : SandboxResult) (code : JSValue),
      (run.error.isSome = true → evaluateTrigger run code = false) ∧
      (∀ s, code = .vStr s → s ≠ [] → run.error = none →
        evaluateTrigger run code = run.result.toBool) := by
  intro run code
  constructor
  · intro herr
    cases code with
    | vStr s =>
      by_cases hs : s.isEmpty
      · simp [evaluateTrigger, hs]
      · rcases Option.isSome_iff_exists.1 herr with ⟨msg, hmsg⟩
        simp [evaluateTrigger, hs, hmsg]
    | vUndefined => simp [evaluateTrigger]
    | vNull => simp [evaluateTrigger]
    | vBool b => simp [evaluateTrigger]
    | vNum q => simp [evaluateTrigger]
    | vNaN => simp [evaluateTrigger]
    | vObj => simp [evaluateTrigger]
  · intro s hcode hs herr
    subst hcode
    have hs2 : s.isEmpty = false := by
      cases s with
      | nil => exact absurd rfl hs
      | cons c cs => simp [List.isEmpty]
    simp [evaluateTrigger, hs2, herr]

/-- Witness for C2: a sandbox error on a nonempty script yields `false`,
and an error-free run returning the number 3 yields `true` (`Boolean(3)`). -/
theorem C2_witness :
    evaluateTrigger ⟨.vBool true, some "fail".toList⟩ (.vStr "x".toList) = false ∧
    evaluateTrigger ⟨.vNum 3, none⟩ (.vStr "x".toList) = JSValue.toBool (.vNum 3) := by
  constructor
  · exact (C2_evaluateTrigger_fail_closed ⟨.vBool true, some "fail".toList⟩
      (.vStr "x".toList)).1 rfl
  · exact (C2_evaluateTrigger_fail_closed ⟨.vNum 3, none⟩
      (.vStr "x".toList)).2 "x".toList rfl (by decide) rfl

-- ---------------------------------------------------------------------------
-- Claim C10
-- ---------------------------------------------------------------------------

/-- Claim C10: `deleteMemories` removes exactly the records whose text
matches the pattern (substring containment for strings, the test predicate
for regexes): the kept list is a sublist of the store (non-matching records
unchanged, original relative order), contains every non-matching record and
no matching one, and the returned count is the number of matching records,
so that kept + removed = total. -/
theorem C10_deleteMemories_frame :
    ∀ (mems : List Memory) (pattern : DeletePattern),
      (deleteMemories mems pattern).1.Sublist mems ∧
      (∀ m ∈ (deleteMemories mems pattern).1, patternMatches pattern m.text = false) ∧
      (∀ m ∈ mems, patternMatches pattern m.text = false →
        m ∈ (deleteMemories mems pattern).1) ∧
      (deleteMemories mems pattern).2 =
        (mems.filter fun m => patternMatches pattern m.text).length ∧
      (deleteMemories mems pattern).1.length + (deleteMemories mems pattern).2 =
        mems.length := by
  intro mems pattern
  have hsplit := length_filter_add_not (fun m => patternMatches pattern m.text) mems
  refine ⟨List.filter_sublist mems, ?_, ?_, ?_, ?_⟩
  · intro m hm
    have := (List.mem_filter.1 hm).2
    simpa using this
  · intro m hm hmatch
    exact List.mem_filter.2 ⟨hm, by simp [hmatch]⟩
  · show mems.length - (mems.filter fun m => !patternMatches pattern m.text).length = _
    omega
  · show (mems.filter fun m => !patternMatches pattern m.text).length +
      (mems.length - (mems.filter fun m => !patternMatches pattern m.text).length) =
      mems.length
    have hle := List.length_filter_le (fun m => !patternMatches pattern m.text) mems
    omega

/-- Witness for C10 at a concrete two-record store and the literal pattern
`"dog"`: the non-matching record survives. -/
theorem C10_witness :
    ⟨"a cat".toList, [], 0, "c".toList, 0, []⟩ ∈
      (deleteMemories
        [⟨"a cat".toList, [], 0, "c".toList, 0, []⟩,
         ⟨"a dog".toList, [], 0, "c".toList, 0, []⟩]
        (.str "dog".toList)).1 :=
  (C10_deleteMemories_frame
      [⟨"a cat".toList, [], 0, "c".toList, 0, []⟩,
       ⟨"a dog".toList, [], 0, "c".toList, 0, []⟩]
      (.str "dog".toList)).2.2.1
    ⟨"a cat".toList, [], 0, "c".toList, 0, []⟩ (by simp) (by decide)

-- ---------------------------------------------------------------------------
-- Claim C5
-- ---------------------------------------------------------------------------

/-- Generic form of the `forEach`/push accumulation used by `loadMemories`. -/
theorem foldl_push_filterMap {α β : Type} (f : α → Option β) (l : List α)
    (acc : List β) :
    (l.foldl (fun acc r => acc ++ (f r).toList) acc) = acc ++ l.filterMap f := by
  induction l generalizing acc with
  | nil => simp
  | cons a rest ih =>
    rw [List.foldl_cons, List.filterMap_cons, ih]
    cases h : f a with
    | none => simp [h]
    | some b => simp [h]

/-- Counterexample for C5: the code KEEPS an entry whose timestamp fails to
parse — it hydrates it with the load time (here `1000`) — while the claim
says such an entry is dropped (the claim-following variant returns `[]`). -/
theorem C5_counterexample :
    loadMemories (fun l => l) 1000 [.obj badTsEntry] =
      [{ text := "hi".toList, keywords := [], score := 0,
         conversation_id := "c".toList, time_stamp := 1000, modalities := [] }] ∧
    loadMemoriesClaimed (fun l => l) 1000 [.obj badTsEntry] = [] := by
  have h1 : jsTrim ['h', 'i'] = ['h', 'i'] := by decide
  have h2 : (['h', 'i'] : List Char) ≠ [] := by decide
  constructor
  · simp [loadMemories, hydrateRecord, badTsEntry, h1, h2]
  · simp [loadMemoriesClaimed, hydrateRecordClaimed, badTsEntry]

/-- Claim C5 (amended): `loadMemories` accumulates exactly the hydrations of
the incoming records; an entry is dropped precisely when it is not an object
or its text is missing/blank; an entry whose timestamp is unparsable is NOT
dropped — it is hydrated with its timestamp defaulted to the load time (the
source logs a warning for each repaired or dropped entry; logging is outside
this state model).  In particular the load never fails wholesale and every
well-formed entry is hydrated. -/
theorem C5_loadMemories_amended :
    ∀ (norm : List Modality → List Modality) (now : ℤ) (records : List RawRecord),
      loadMemories norm now records = records.filterMap (hydrateRecord norm now) ∧
      (hydrateRecord norm now .invalid = none) ∧
      (∀ m : RawShortTermMemory,
        (hydrateRecord norm now (.obj m) = none ↔
          (jsTrim (m.text.getD [])).isEmpty = true)) ∧
      (∀ m : RawShortTermMemory, m.time_stamp = .unparsable →
        (jsTrim (m.text.getD [])).isEmpty = false →
        ∃ mem, hydrateRecord norm now (.obj m) = some mem ∧
          mem.time_stamp = now) := by
  intro norm now records
  refine ⟨?_, rfl, ?_, ?_⟩
  · simp only [loadMemories]
    simpa using foldl_push_filterMap (hydrateRecord norm now) records []
  · intro m
    by_cases h : (jsTrim (m.text.getD [])).isEmpty <;> simp [hydrateRecord, h]
  · intro m hts htext
    have hval : hydrateRecord norm now (.obj m) = some
        { text := m.text.getD [],
          keywords := (m.keywords.getD []).filterMap fun kw =>
            match kw.word with
            | none => none
            | some w => some (⟨w, kw.weight.getD 1⟩ : Keyword),
          score := m.score.getD 0,
          conversation_id := m.conversation_id.getD "default".toList,
          time_stamp := now, modalities := norm m.modalities } := by
      simp [hydrateRecord, htext, hts]
    exact ⟨_, hval, rfl⟩

/-- Witness for C5 (amended) at the concrete unparsable-timestamp entry:
the hydration exists and carries the load time `1000`. -/
theorem C5_witness :
    ∃ mem, hydrateRecord (fun l => l) 1000 (.obj badTsEntry) = some mem ∧
      mem.time_stamp = 1000 :=
  (C5_loadMemories_amended (fun l => l) 1000 []).2.2.2 badTsEntry rfl (by decide)

-- ---------------------------------------------------------------------------
-- Claim C6
-- ---------------------------------------------------------------------------

/-- Claim C6 (behavior at the failing input): with no role weights supplied,
`extractMessageKeywords` multiplies every keyword weight by `1.0` — not by
the documented defaults user=2.7 / assistant=2.0 / system=1.0
(`weights[message.role] || 1.0` with `weights = {}`).  For a user message
whose extractor yields `birthday` at weight 1 (scaled ×5 by
`extractKeywords`), the result weight is 5; had the documented user default
2.7 applied — as it does when the weights are passed explicitly, third
conjunct — it would be 13.5. -/
theorem C6_default_role_multiplier :
    roleMultiplier [] "user".toList = 1 ∧
    extractMessageKeywords (fun _ _ => [⟨"birthday".toList, 1⟩])
      [{ role := "user".toList, content := "my birthday".toList }] [] =
      [⟨"birthday".toList, 5⟩] ∧
    extractMessageKeywords (fun _ _ => [⟨"birthday".toList, 1⟩])
      [{ role := "user".toList, content := "my birthday".toList }]
      [("user".toList, 2.7)] = [⟨"birthday".toList, 13.5⟩] := by
  have h1 : jsTrim ['m', 'y', ' ', 'b', 'i', 'r', 't', 'h', 'd', 'a', 'y'] =
      ['m', 'y', ' ', 'b', 'i', 'r', 't', 'h', 'd', 'a', 'y'] := by decide
  have h2 : (['m', 'y', ' ', 'b', 'i', 'r', 't', 'h', 'd', 'a', 'y'] : List Char) ≠ [] := by
    decide
  refine ⟨rfl, ?_, ?_⟩ <;>
    norm_num [extractMessageKeywords, extractKeywords, roleMultiplier,
      assocFind, assocBump, sortByDesc, insertByDesc, KEYWORD_MIN_WEIGHT,
      h1, h2]

-- ---------------------------------------------------------------------------
-- Claim C7
-- ---------------------------------------------------------------------------

theorem assocFind_append_left {β : Type} {key : JSStr} {m₁ : List (JSStr × β)}
    (m₂ : List (JSStr × β)) {v : β} (h : assocFind key m₁ = some v) :
    assocFind key (m₁ ++ m₂) = some v := by
  induction m₁ with
  | nil => simp [assocFind] at h
  | cons p rest ih =>
    rw [List.cons_append]
    rw [assocFind] at h ⊢
    by_cases hp : p.1 = key <;> simp [hp] at h ⊢ <;> simp_all [ih]

theorem assocFind_append_right {β : Type} {key : JSStr} {m₁ : List (JSStr × β)}
    (m₂ : List (JSStr × β)) (h : assocFind key m₁ = none) :
    assocFind key (m₁ ++ m₂) = assocFind key m₂ := by
  induction m₁ with
  | nil => simp
  | cons p rest ih =>
    rw [List.cons_append]
    rw [assocFind] at h ⊢
    by_cases hp : p.1 = key <;> simp [hp] at h ⊢ <;> simp_all [ih]

theorem assocFind_updateFirst {β : Type} (f : β → β) (u key : JSStr)
    (m : List (JSStr × β)) :
    assocFind key (updateFirst f u m) =
      if u = key then (assocFind key m).map f else assocFind key m := by
  induction m with
  | nil => by_cases huk : u = key <;> simp [updateFirst, assocFind, huk]
  | cons p rest ih =>
    obtain ⟨k, v⟩ := p
    rw [updateFirst]
    by_cases hku : k = u
    · rw [if_pos hku]
      by_cases hkk : k = key
      · have huk : u = key := by rw [← hku, hkk]
        rw [if_pos huk, assocFind, if_pos hkk, assocFind, if_pos hkk]
        rfl
      · have huk : ¬u = key := fun h => hkk (by rw [hku, h])
        rw [if_neg huk, assocFind, if_neg hkk, assocFind, if_neg hkk]
    · rw [if_neg hku]
      by_cases huk : u = key
      · rw [if_pos huk]
        by_cases hkk : k = key
        · exact absurd (hkk.trans huk.symm) hku
        · rw [assocFind, if_neg hkk, assocFind, if_neg hkk, ih, if_pos huk]
      · rw [if_neg huk]
        by_cases hkk : k = key
        · rw [assocFind, if_pos hkk, assocFind, if_pos hkk]
        · rw [assocFind, if_neg hkk, assocFind, if_neg hkk, ih, if_neg huk]

/-- Effect of one `assocBump` on a later lookup. -/
theorem assocFind_bump (m : List (JSStr × ℚ)) (u key : JSStr) (w : ℚ) :
    assocFind key (assocBump m u w) =
      if u = key then
        match assocFind key m with
        | some q => some (q + w)
        | none => some w
      else assocFind key m := by
  rw [assocBump]
  cases hu : assocFind u m with
  | some q0 =>
    rw [assocFind_updateFirst]
    by_cases huk : u = key
    · subst huk
      simp [hu]
    · simp [huk]
  | none =>
    by_cases huk : u = key
    · subst huk
      rw [assocFind_append_right _ hu]
      simp [hu, assocFind]
    · cases hk : assocFind key m with
      | some v => rw [assocFind_append_left _ hk]; simp [huk]
      | none =>
        have hku : ¬key = u := fun h => huk h.symm
        rw [assocFind_append_right _ hk]
        simp [huk, assocFind, hk, hku]

theorem aggWeight_cons (kw : Keyword) (rest : List Keyword) (w : JSStr) :
    aggWeight (kw :: rest) w =
      if kw.word = w then kw.weight + aggWeight rest w else aggWeight rest w := by
  by_cases h : kw.word = w <;> simp [aggWeight, List.filter_cons, h]

/-- Lookup in the memory keyword map built by summing bumps: the bound value
is the sum of the weights of the identically-spelled entries. -/
theorem buildMap_find (kws : List Keyword) :
    ∀ (m0 : List (JSStr × ℚ)) (key : JSStr),
      assocFind key (kws.foldl (fun m kw => assocBump m kw.word kw.weight) m0) =
        match assocFind key m0 with
        | some q => some (q + aggWeight kws key)
        | none =>
          if kws.any (fun kw => decide (kw.word = key)) then
            some (aggWeight kws key)
          else none := by
  induction kws with
  | nil =>
    intro m0 key
    cases h : assocFind key m0 <;> simp [h, aggWeight]
  | cons kw rest ih =>
    intro m0 key
    rw [List.foldl_cons, ih (assocBump m0 kw.word kw.weight) key,
      assocFind_bump, aggWeight_cons]
    by_cases hk : kw.word = key
    · cases h0 : assocFind key m0 with
      | some q => simp [hk, h0, add_assoc]
      | none => simp [hk, h0]
    · cases h0 : assocFind key m0 with
      | some q => simp [hk, h0]
      | none => simp [hk, h0]

/-- Unrolling the query-side fold of `keywordMatchScore`. -/
theorem matchStep_fold (mp : List (JSStr × ℚ)) (cur : List Keyword) :
    ∀ (a : ℚ),
      cur.foldl (matchStep mp) a =
        a + ((cur.filter fun c => (assocFind c.word mp).isSome).map
              fun c => c.weight + (assocFind c.word mp).getD 0).sum := by
  induction cur with
  | nil => intro a; simp
  | cons c rest ih =>
    intro a
    rw [List.foldl_cons]
    cases h : assocFind c.word mp with
    | none =>
      have hstep : matchStep mp a c = a := by simp [matchStep, h]
      rw [hstep, ih a, List.filter_cons]
      simp [h]
    | some mw =>
      have hstep : matchStep mp a c = a + (c.weight + mw) := by simp [matchStep, h]
      rw [hstep, ih (a + (c.weight + mw)), List.filter_cons]
      simp [h, add_assoc]

/-- Claim C7 (amended): the keyword match score of `calculateRelevance`
equals the sum, over the query keyword entries whose `word` occurs — under
EXACT, case-SENSITIVE string equality, not the case-insensitive comparison
the claim states — among the memory aggregated keywords, of
`queryWeight + memoryWeight`, where the memory weight for a word is the sum
of the weights of its identically-spelled occurrences. -/
theorem C7_keywordMatchScore_amended :
    ∀ (memoryKws currentKws : List Keyword),
      keywordMatchScore memoryKws currentKws =
        ((currentKws.filter fun c =>
            memoryKws.any fun k => decide (k.word = c.word)).map
          fun c => c.weight + aggWeight memoryKws c.word).sum := by
  intro memoryKws currentKws
  rw [keywordMatchScore, matchStep_fold, zero_add]
  have hfind : ∀ c : Keyword,
      assocFind c.word (buildMemoryKeywordMap memoryKws) =
        if memoryKws.any (fun k => decide (k.word = c.word)) then
          some (aggWeight memoryKws c.word)
        else none := by
    intro c
    rw [buildMemoryKeywordMap, buildMap_find memoryKws [] c.word]
    simp [assocFind]
  have hfilter :
      (currentKws.filter fun c =>
          (assocFind c.word (buildMemoryKeywordMap memoryKws)).isSome) =
        (currentKws.filter fun c =>
          memoryKws.any fun k => decide (k.word = c.word)) := by
    apply List.filter_congr
    intro c _
    rw [hfind c]
    by_cases h : memoryKws.any (fun k => decide (k.word = c.word)) <;> simp [h]
  rw [hfilter]
  congr 1
  apply List.map_congr_left
  intro c hc
  have hany := (List.mem_filter.1 hc).2
  rw [hfind c]
  simp [hany]

/-- Counterexample for C7: the code compares keyword words with exact JS
string equality — `Map.has` on the raw `word` — so the query word `cat`
does not match the memory word `Cat` and scores 0, while the claim
(case-insensitive membership) predicts `1 + 2 = 3`. -/
theorem C7_counterexample :
    keywordMatchScore [⟨"Cat".toList, 2⟩] [⟨"cat".toList, 1⟩] = 0 ∧
    keywordMatchScoreClaimed [⟨"Cat".toList, 2⟩] [⟨"cat".toList, 1⟩] = 3 := by
  have hne : (['C', 'a', 't'] : List Char) ≠ ['c', 'a', 't'] := by decide
  have hlow : jsToLower ['C', 'a', 't'] = jsToLower ['c', 'a', 't'] := by decide
  constructor
  · simp [keywordMatchScore, buildMemoryKeywordMap, assocBump, assocFind,
      matchStep, hne]
  · norm_num [keywordMatchScoreClaimed, aggWeightCI, hlow]

-- ---------------------------------------------------------------------------
-- Claim C8
-- ---------------------------------------------------------------------------

/-- Counterexample for C8: `addMemory` stamps the new record with
`new Date(lastMessage.timestamp || Date.now())`, so a message carrying an
old timestamp (here 17) yields a stored memory whose timestamp is BELOW the
call time (1000000), refuting "timestamp greater than or equal to the time
of the call". -/
theorem C8_counterexample :
    ShortTerm.addMemory (fun _ _ => []) (fun l => l) 1000000
        [{ role := "user".toList, content := "hello".toList, name := none,
           timestamp := some 17 }] "c1".toList [] [] [] =
      (true, [{ time_stamp := 17, text := "user: hello".toList,
                keywords := [], score := 0, conversation_id := "c1".toList,
                modalities := [] }]) ∧
    (17 : ℤ) < 1000000 := by
  constructor
  · have h1 : ¬jsTrim ['u', 's', 'e', 'r', ':', ' ', 'h', 'e', 'l', 'l', 'o'] = [] := by
      decide
    have h2 : ("hello".toList).isEmpty = false := by decide
    simp [ShortTerm.addMemory, createContextSnapshot, joinNewline,
      extractMessageKeywords, extractKeywords, sortByDesc, h1, h2]
  · decide

/-- Claim C8 (amended): for every non-empty message list whose rendered
transcript is non-blank, `addMemory` succeeds and appends exactly one new
record, present immediately afterwards, with `score = 0` and with timestamp
equal to the LAST MESSAGE's truthy (nonzero) `timestamp` field when present,
and to the call time otherwise — not always `≥` the call time. -/
theorem C8_addMemory_amended :
    ∀ (jieba : Extractor) (norm : List Modality → List Modality) (now : ℤ)
      (messages : List Message) (conversationId : JSStr)
      (roleWeights : List (JSStr × ℚ)) (optModalities : List Modality)
      (mems : List Memory) (hne : messages ≠ [])
      (_ : (jsTrim (createContextSnapshot messages)).isEmpty = false),
      ShortTerm.addMemory jieba norm now messages conversationId roleWeights
          optModalities mems =
        (true, mems ++
          [{ time_stamp :=
               match (messages.getLast hne).timestamp with
               | some t => if t = 0 then now else t
               | none => now,
             text := createContextSnapshot messages,
             keywords := extractMessageKeywords jieba messages roleWeights,
             score := 0, conversation_id := conversationId,
             modalities := norm optModalities }]) := by
  intro jieba norm now messages conversationId roleWeights optModalities mems
    hne htext
  match messages, hne with
  | m0 :: rest, _ =>
    rw [ShortTerm.addMemory]
    simp only [htext, Bool.false_eq_true, if_false, ite_false]

/-- Witness for C8 (amended) at a message without a timestamp: the record
is appended with the call time 5 and score 0. -/
theorem C8_witness :
    ShortTerm.addMemory (fun _ _ => []) (fun l => l) 5
        [{ role := "user".toList, content := "hi".toList }] "c".toList [] [] [] =
      (true, [{ time_stamp := 5, text := "user: hi".toList, keywords := [],
                score := 0, conversation_id := "c".toList,
                modalities := [] }]) := by
  have h := C8_addMemory_amended (fun _ _ => []) (fun l => l) 5
    [{ role := "user".toList, content := "hi".toList }] "c".toList [] [] []
    (by decide) (by decide)
  rw [h]
  have h2 : ("hi".toList).isEmpty = false := by decide
  simp [createContextSnapshot, joinNewline, extractMessageKeywords,
    extractKeywords, sortByDesc, h2]

-- ---------------------------------------------------------------------------
-- Claim C4
-- ---------------------------------------------------------------------------

/-- Under pairwise-distinct names, splicing out the first record with a name
removes every record with that name. -/
theorem removeFirst_eq_filter (nm : JSStr) :
    ∀ (mems : List LongTermMemory), (mems.map LongTermMemory.name).Nodup →
      removeFirstByName nm mems =
        mems.filter fun m => !(decide (m.name = nm)) := by
  intro mems
  induction mems with
  | nil => intro _; rfl
  | cons m rest ih =>
    intro hnd
    rw [List.map_cons, List.nodup_cons] at hnd
    rw [removeFirstByName, List.filter_cons]
    by_cases h : m.name = nm
    · rw [if_pos h, if_neg (by simp [h])]
      symm
      apply List.filter_eq_self.2
      intro x hx
      have hxn : ¬x.name = nm := by
        intro hxn
        exact hnd.1 (by
          rw [h, ← hxn]
          exact List.mem_map_of_mem LongTermMemory.name hx)
      simp [hxn]
    · rw [if_neg h, if_pos (by simp [h]), ih hnd.2]

/-- Mapping after `set` is unchanged when the replacement agrees under the
map with the replaced element. -/
theorem map_set_same {α β : Type} (f : α → β) :
    ∀ (l : List α) (i : ℕ) (a m : α), l.get? i = some m → f a = f m →
      (l.set i a).map f = l.map f := by
  intro l
  induction l with
  | nil => intro i a m h _; simp at h
  | cons x rest ih =>
    intro i a m h hf
    cases i with
    | zero =>
      simp only [List.get?] at h
      cases h
      simp [List.set, hf]
    | succ n =>
      simp only [List.get?] at h
      simp [List.set, ih n a m h hf]

/-- Claim C4: with pairwise-distinct long-term names, (1) every operation —
`addMemory` (success or failure), `updateMemory`, `deleteMemory` — preserves
pairwise distinctness of names, and (2) a successful `addMemory` under a
name already present or not leaves exactly one record with that name,
carrying the calling input's fields (`createdAt = now`,
`createdContext = input || ''`, no `updatedAt`). -/
theorem C4_longTerm_name_key :
    ∀ (valid : Bool) (norm : List Modality → List Modality) (now : ℤ)
      (input : LongTermMemoryInput) (nm : JSStr) (updates : LongTerm.Updates)
      (mems : List LongTermMemory),
      (mems.map LongTermMemory.name).Nodup →
      ((LongTerm.addMemory valid norm now input mems).2.map
          LongTermMemory.name).Nodup ∧
      (∀ nmI, input.name = some nmI →
        (LongTerm.addMemory valid norm now input mems).1 = true →
        (LongTerm.addMemory valid norm now input mems).2.filter
            (fun m => decide (m.name = nmI)) =
          [{ name := nmI, prompt := input.prompt.getD [],
             trigger := input.trigger.getD [], createdAt := now,
             updatedAt := none,
             createdContext := input.createdContext.getD [],
             updatedContext := none,
             modalities := norm input.modalities }]) ∧
      ((LongTerm.updateMemory valid norm now nm updates mems).2.map
          LongTermMemory.name).Nodup ∧
      ((LongTerm.deleteMemory nm mems).2.map LongTermMemory.name).Nodup := by
  intro valid norm now input nm updates mems hnd
  have haddState : ∀ nmI, input.name = some nmI →
      (LongTerm.addMemory valid norm now input mems).1 = true →
      (LongTerm.addMemory valid norm now input mems).2 =
        (mems.filter fun m => !(decide (m.name = nmI))) ++
          [{ name := nmI, prompt := input.prompt.getD [],
             trigger := input.trigger.getD [], createdAt := now,
             updatedAt := none,
             createdContext := input.createdContext.getD [],
             updatedContext := none,
             modalities := norm input.modalities }] := by
    intro nmI hname hsucc
    rw [LongTerm.addMemory] at hsucc ⊢
    by_cases hguard : (!(jsStrTruthy input.name) || !(jsStrTruthy input.trigger) ||
        !(jsStrTruthy input.prompt)) = true
    · rw [if_pos hguard] at hsucc
      simp at hsucc
    · rw [if_neg hguard] at hsucc ⊢
      by_cases hvalid : (!valid) = true
      · rw [if_pos hvalid] at hsucc
        simp at hsucc
      · rw [if_neg hvalid] at hsucc ⊢
        rw [hname]
        simp only [Option.getD_some]
        rw [removeFirst_eq_filter nmI mems hnd]
  refine ⟨?_, ?_, ?_, ?_⟩
  · by_cases hsucc : (LongTerm.addMemory valid norm now input mems).1 = true
    · have hname : ∃ nmI, input.name = some nmI := by
        rw [LongTerm.addMemory] at hsucc
        cases hin : input.name with
        | none => rw [hin] at hsucc; simp [jsStrTruthy] at hsucc
        | some v => exact ⟨v, rfl⟩
      obtain ⟨nmI, hname⟩ := hname
      rw [haddState nmI hname hsucc, List.map_append, List.map_cons,
        List.map_nil]
      rw [List.nodup_append]
      refine ⟨((List.filter_sublist mems).map LongTermMemory.name).nodup hnd,
        List.nodup_singleton nmI, ?_⟩
      intro x hx
      rcases List.mem_map.1 hx with ⟨mrec, hmrec, rfl⟩
      have := (List.mem_filter.1 hmrec).2
      simp only [Bool.not_eq_eq_eq_not, Bool.not_true, decide_eq_false_iff_not]
        at this
      simp [this]
    · have hstate : (LongTerm.addMemory valid norm now input mems).2 = mems := by
        rw [LongTerm.addMemory] at hsucc ⊢
        by_cases hguard : (!(jsStrTruthy input.name) ||
            !(jsStrTruthy input.trigger) || !(jsStrTruthy input.prompt)) = true
        · rw [if_pos hguard]
        · rw [if_neg hguard] at hsucc ⊢
          by_cases hvalid : (!valid) = true
          · rw [if_pos hvalid]
          · rw [if_neg hvalid] at hsucc
            simp at hsucc
      rw [hstate]
      exact hnd
  · intro nmI hname hsucc
    rw [haddState nmI hname hsucc, List.filter_append]
    have hleft : (mems.filter fun m => !(decide (m.name = nmI))).filter
        (fun m => decide (m.name = nmI)) = [] := by
      apply List.filter_eq_nil_iff.2
      intro x hx
      have := (List.mem_filter.1 hx).2
      simp only [Bool.not_eq_eq_eq_not, Bool.not_true, decide_eq_false_iff_not]
        at this
      simp [this]
    rw [hleft, List.nil_append, List.filter_cons]
    simp
  · rw [LongTerm.updateMemory]
    cases hidx : mems.findIdx? (fun m => m.name = nm) with
    | none => exact hnd
    | some memoryIndex =>
      by_cases htrig : (jsStrTruthy updates.trigger && !valid) = true
      · simp only [if_pos htrig]
        exact hnd
      · simp only [if_neg htrig]
        cases hget : mems.get? memoryIndex with
        | none =>
          simp only [hget]
          exact hnd
        | some memory =>
          simp only [hget]
          have hf : LongTermMemory.name
              { memory with
                trigger := updates.trigger.getD memory.trigger,
                prompt := updates.prompt.getD memory.prompt,
                updatedContext :=
                  match updates.updatedContext with
                  | some u => some u
                  | none => memory.updatedContext,
                modalities :=
                  match updates.modalities with
                  | some ms => norm ms
                  | none => memory.modalities,
                updatedAt := some now } = LongTermMemory.name memory := rfl
          rw [map_set_same LongTermMemory.name mems memoryIndex _ memory hget hf]
          exact hnd
  · rw [LongTerm.deleteMemory]
    exact ((List.filter_sublist mems).map LongTermMemory.name).nodup hnd

/-- Witness for C4: adding a second record named `a` over an existing one
leaves exactly one record with that name, carrying the second call's
fields. -/
theorem C4_witness :
    (LongTerm.addMemory true (fun l => l) 7
        ⟨some "a".toList, some "p2".toList, some "t2".toList, none, []⟩
        [⟨"a".toList, "p1".toList, "t1".toList, 0, none, [], none, []⟩]).2.filter
      (fun m => decide (m.name = "a".toList)) =
      [⟨"a".toList, "p2".toList, "t2".toList, 7, none, [], none, []⟩] := by
  have h := (C4_longTerm_name_key true (fun l => l) 7
    ⟨some "a".toList, some "p2".toList, some "t2".toList, none, []⟩
    "a".toList ⟨none, none, none, none⟩
    [⟨"a".toList, "p1".toList, "t1".toList, 0, none, [], none, []⟩]
    (by decide)).2.1 "a".toList rfl (by decide)
  exact h

-- ---------------------------------------------------------------------------
-- Claim C9
-- ---------------------------------------------------------------------------

theorem updateFirst_map_fst {β : Type} (f : β → β) (u : JSStr) :
    ∀ m : List (JSStr × β), (updateFirst f u m).map Prod.fst = m.map Prod.fst := by
  intro m
  induction m with
  | nil => rfl
  | cons p rest ih =>
    obtain ⟨k, v⟩ := p
    rw [updateFirst]
    by_cases hk : k = u
    · rw [if_pos hk]
      rfl
    · rw [if_neg hk, List.map_cons, List.map_cons, ih]

theorem assocFind_eq_none {β : Type} (key : JSStr) :
    ∀ m : List (JSStr × β), assocFind key m = none ↔ ∀ p ∈ m, ¬p.1 = key := by
  intro m
  induction m with
  | nil => simp [assocFind]
  | cons p rest ih =>
    obtain ⟨k, v⟩ := p
    rw [assocFind]
    constructor
    · intro h q hq
      by_cases hk : k = key
      · rw [if_pos hk] at h
        cases h
      · rw [if_neg hk] at h
        rcases List.mem_cons.1 hq with rfl | hq2
        · exact hk
        · exact (ih.1 h) q hq2
    · intro h
      have hk : ¬k = key := h (k, v) (List.mem_cons_self _ _)
      rw [if_neg hk]
      exact ih.2 fun q hq => h q (List.mem_cons_of_mem _ hq)

theorem assocFind_mem_nodup {β : Type} {key : JSStr} {v : β}
    {m : List (JSStr × β)} (hnd : (m.map Prod.fst).Nodup)
    (hmem : (key, v) ∈ m) : assocFind key m = some v := by
  induction m with
  | nil => simp at hmem
  | cons p rest ih =>
    obtain ⟨k, v0⟩ := p
    simp only [List.map_cons, List.nodup_cons] at hnd
    rcases List.mem_cons.1 hmem with heq | hmem2
    · injection heq with h1 h2
      subst h1
      subst h2
      rw [assocFind, if_pos rfl]
    · have hk : ¬k = key := by
        intro hkk
        subst hkk
        exact hnd.1 (List.mem_map.2 ⟨_, hmem2, rfl⟩)
      rw [assocFind, if_neg hk, ih hnd.2 hmem2]

theorem dedupInsert_keys_nodup (kw : RawKeyword) (m : List (JSStr × Keyword))
    (hnd : (m.map Prod.fst).Nodup) :
    ((dedupInsert m kw).map Prod.fst).Nodup := by
  cases hw : kw.word with
  | none =>
    have h1 : dedupInsert m kw = m := by simp [dedupInsert, hw]
    rw [h1]
    exact hnd
  | some w0 =>
    by_cases hempty : (normKey w0).isEmpty = true
    · have h1 : dedupInsert m kw = m := by simp [dedupInsert, hw, hempty]
      rw [h1]
      exact hnd
    · cases hfind : assocFind (normKey w0) m with
      | some kw0 =>
        have h1 : dedupInsert m kw =
            updateFirst (fun x => ⟨x.word, max x.weight (kw.weight.getD 1)⟩)
              (normKey w0) m := by
          simp [dedupInsert, hw, hempty, hfind]
        rw [h1, updateFirst_map_fst]
        exact hnd
      | none =>
        have h1 : dedupInsert m kw =
            m ++ [(normKey w0, ⟨w0, kw.weight.getD 1⟩)] := by
          simp [dedupInsert, hw, hempty, hfind]
        rw [h1, List.map_append]
        rw [List.nodup_append]
        refine ⟨hnd, by simp, ?_⟩
        intro x hx
        have hall := (assocFind_eq_none (normKey w0) m).1 hfind
        rcases List.mem_map.1 hx with ⟨p, hp, rfl⟩
        simp only [List.map_cons, List.map_nil, List.mem_singleton]
        intro hcontra
        exact hall p hp (by rw [hcontra])

theorem dedupFold_keys_nodup (ks : List RawKeyword) :
    ∀ m : List (JSStr × Keyword), (m.map Prod.fst).Nodup →
      ((ks.foldl dedupInsert m).map Prod.fst).Nodup := by
  induction ks with
  | nil => intro m h; exact h
  | cons kw rest ih =>
    intro m h
    exact ih _ (dedupInsert_keys_nodup kw m h)

theorem updateFirst_keyInv (w : ℚ) (u : JSStr) :
    ∀ m : List (JSStr × Keyword), (∀ p ∈ m, normKey p.2.word = p.1) →
      ∀ p ∈ updateFirst (fun x => ⟨x.word, max x.weight w⟩) u m,
        normKey p.2.word = p.1 := by
  intro m
  induction m with
  | nil => intro _ p hp; simp [updateFirst] at hp
  | cons q rest ih =>
    intro hinv p hp
    obtain ⟨k, v⟩ := q
    rw [updateFirst] at hp
    by_cases hk : k = u
    · rw [if_pos hk] at hp
      rcases List.mem_cons.1 hp with rfl | hp2
      · exact hinv (k, v) (List.mem_cons_self _ _)
      · exact hinv p (List.mem_cons_of_mem _ hp2)
    · rw [if_neg hk] at hp
      rcases List.mem_cons.1 hp with rfl | hp2
      · exact hinv (k, v) (List.mem_cons_self _ _)
      · exact ih (fun r hr => hinv r (List.mem_cons_of_mem _ hr)) p hp2

theorem dedupInsert_keyInv (kw : RawKeyword) (m : List (JSStr × Keyword))
    (hinv : ∀ p ∈ m, normKey p.2.word = p.1) :
    ∀ p ∈ dedupInsert m kw, normKey p.2.word = p.1 := by
  cases hw : kw.word with
  | none =>
    have h1 : dedupInsert m kw = m := by simp [dedupInsert, hw]
    rw [h1]
    exact hinv
  | some w0 =>
    by_cases hempty : (normKey w0).isEmpty = true
    · have h1 : dedupInsert m kw = m := by simp [dedupInsert, hw, hempty]
      rw [h1]
      exact hinv
    · cases hfind : assocFind (normKey w0) m with
      | some kw0 =>
        have h1 : dedupInsert m kw =
            updateFirst (fun x => ⟨x.word, max x.weight (kw.weight.getD 1)⟩)
              (normKey w0) m := by
          simp [dedupInsert, hw, hempty, hfind]
        rw [h1]
        exact updateFirst_keyInv (kw.weight.getD 1) (normKey w0) m hinv
      | none =>
        have h1 : dedupInsert m kw =
            m ++ [(normKey w0, ⟨w0, kw.weight.getD 1⟩)] := by
          simp [dedupInsert, hw, hempty, hfind]
        rw [h1]
        intro p hp
        rcases List.mem_append.1 hp with hp1 | hp2
        · exact hinv p hp1
        · rcases List.mem_singleton.1 hp2 with rfl
          rfl

theorem dedupFold_keyInv (ks : List RawKeyword) :
    ∀ m : List (JSStr × Keyword), (∀ p ∈ m, normKey p.2.word = p.1) →
      ∀ p ∈ ks.foldl dedupInsert m, normKey p.2.word = p.1 := by
  induction ks with
  | nil => intro m h; exact h
  | cons kw rest ih =>
    intro m h
    exact ih _ (dedupInsert_keyInv kw m h)

theorem effWeights_cons (kw : RawKeyword) (rest : List RawKeyword) (k : JSStr) :
    effWeights (kw :: rest) k =
      if dedupKey kw = some k then kw.weight.getD 1 :: effWeights rest k
      else effWeights rest k := by
  by_cases h : dedupKey kw = some k <;>
    simp [effWeights, List.filterMap_cons, h]

theorem assocFind_dedupInsert (m : List (JSStr × Keyword)) (kw : RawKeyword)
    (k : JSStr) :
    (assocFind k (dedupInsert m kw)).map Keyword.weight =
      if dedupKey kw = some k then
        match (assocFind k m).map Keyword.weight with
        | some q => some (max q (kw.weight.getD 1))
        | none => some (kw.weight.getD 1)
      else (assocFind k m).map Keyword.weight := by
  cases hw : kw.word with
  | none =>
    have h1 : dedupInsert m kw = m := by simp [dedupInsert, hw]
    have h2 : dedupKey kw = none := by simp [dedupKey, hw]
    rw [h1, h2]
    simp
  | some w0 =>
    by_cases hempty : (normKey w0).isEmpty = true
    · have h1 : dedupInsert m kw = m := by simp [dedupInsert, hw, hempty]
      have h2 : dedupKey kw = none := by simp [dedupKey, hw, hempty]
      rw [h1, h2]
      simp
    · have h2 : dedupKey kw = some (normKey w0) := by
        simp [dedupKey, hw, hempty]
      cases hfind : assocFind (normKey w0) m with
      | some kw0 =>
        have h1 : dedupInsert m kw =
            updateFirst (fun x => ⟨x.word, max x.weight (kw.weight.getD 1)⟩)
              (normKey w0) m := by
          simp [dedupInsert, hw, hempty, hfind]
        rw [h1, assocFind_updateFirst, h2]
        by_cases hk : normKey w0 = k
        · rw [hk] at hfind
          rw [if_pos hk, if_pos (by rw [hk]), hfind]
          rfl
        · have hk2 : ¬(some (normKey w0) = some k) := by simp [hk]
          rw [if_neg hk, if_neg hk2]
      | none =>
        have h1 : dedupInsert m kw =
            m ++ [(normKey w0, ⟨w0, kw.weight.getD 1⟩)] := by
          simp [dedupInsert, hw, hempty, hfind]
        rw [h1, h2]
        by_cases hk : normKey w0 = k
        · subst hk
          rw [assocFind_append_right _ hfind, hfind]
          simp [assocFind]
        · have hk2 : ¬(some (normKey w0) = some k) := by simp [hk]
          rw [if_neg hk2]
          cases hfk : assocFind k m with
          | some v => rw [assocFind_append_left _ hfk]
          | none =>
            rw [assocFind_append_right _ hfk]
            simp [assocFind, hk]

theorem maxList1_cons (w v : ℚ) (vs : List ℚ) :
    maxList1 w (v :: vs) = maxList1 (max w v) vs := rfl

theorem le_maxList1_seed : ∀ (ws : List ℚ) (w : ℚ), w ≤ maxList1 w ws := by
  intro ws
  induction ws with
  | nil => intro w; exact le_refl w
  | cons v vs ih =>
    intro w
    rw [maxList1_cons]
    exact le_trans (le_max_left w v) (ih (max w v))

theorem maxList1_mem : ∀ (ws : List ℚ) (w : ℚ), maxList1 w ws ∈ w :: ws := by
  intro ws
  induction ws with
  | nil => intro w; simp [maxList1]
  | cons v vs ih =>
    intro w
    rw [maxList1_cons]
    rcases List.mem_cons.1 (ih (max w v)) with h | h
    · rw [h]
      rcases max_choice w v with hm | hm
      · rw [hm]
        exact List.mem_cons_self w (v :: vs)
      · rw [hm]
        exact List.mem_cons_of_mem w (List.mem_cons_self v vs)
    · exact List.mem_cons_of_mem w (List.mem_cons_of_mem v h)

theorem le_maxList1 : ∀ (ws : List ℚ) (w x : ℚ), x ∈ w :: ws →
    x ≤ maxList1 w ws := by
  intro ws
  induction ws with
  | nil =>
    intro w x h
    rcases List.mem_cons.1 h with rfl | h2
    · exact le_refl x
    · simp at h2
  | cons v vs ih =>
    intro w x h
    rw [maxList1_cons]
    rcases List.mem_cons.1 h with rfl | h2
    · exact le_trans (le_max_left x v) (le_maxList1_seed vs (max x v))
    · rcases List.mem_cons.1 h2 with rfl | h3
      · exact le_trans (le_max_right w x) (le_maxList1_seed vs (max w x))
      · exact ih (max w v) x (List.mem_cons_of_mem _ h3)

theorem mem_effWeights {ks : List RawKeyword} {k : JSStr} {q : ℚ} :
    q ∈ effWeights ks k ↔
      ∃ kw, kw ∈ ks ∧ dedupKey kw = some k ∧ kw.weight.getD 1 = q := by
  rw [effWeights, List.mem_filterMap]
  constructor
  · rintro ⟨kw, hmem, hf⟩
    by_cases hd : dedupKey kw = some k
    · rw [if_pos hd] at hf
      exact ⟨kw, hmem, hd, Option.some.inj hf⟩
    · rw [if_neg hd] at hf
      cases hf
  · rintro ⟨kw, hmem, hd, hw⟩
    exact ⟨kw, hmem, by rw [if_pos hd, hw]⟩

/-- Lookup in the fold of `dedupInsert`: the bound weight is the running
maximum of the effective weights contributed to the key. -/
theorem dedupFold_find (ks : List RawKeyword) :
    ∀ (m0 : List (JSStr × Keyword)) (k : JSStr),
      (assocFind k (ks.foldl dedupInsert m0)).map Keyword.weight =
        match (assocFind k m0).map Keyword.weight with
        | some q => some (maxList1 q (effWeights ks k))
        | none =>
          match effWeights ks k with
          | [] => none
          | w :: ws => some (maxList1 w ws) := by
  induction ks with
  | nil =>
    intro m0 k
    cases h : (assocFind k m0).map Keyword.weight <;>
      simp [h, effWeights, maxList1]
  | cons kw rest ih =>
    intro m0 k
    rw [List.foldl_cons, ih (dedupInsert m0 kw) k, assocFind_dedupInsert,
      effWeights_cons]
    by_cases hd : dedupKey kw = some k
    · rw [if_pos hd, if_pos hd]
      cases h0 : (assocFind k m0).map Keyword.weight with
      | some q => simp [maxList1_cons]
      | none => simp [maxList1_cons]
    · rw [if_neg hd, if_neg hd]

/-- Claim C9: `deduplicateKeywords` merges case-insensitively (on the
trimmed, lowercased word) keeping the maximum weight per distinct word —
every output entry's weight is the weight of some input entry for its
normalized word and bounds every such input weight, output normalized words
are pairwise distinct — and on the concrete input
`[{cat,2.0},{Cat,1.5},{dog,1.0},{cat,3.0}]` it returns exactly
`[{cat,3.0},{dog,1.0}]`. -/
theorem C9_deduplicateKeywords :
    (∀ (ks : List RawKeyword) (e : Keyword), e ∈ deduplicateKeywords ks →
      (∃ kw, kw ∈ ks ∧ dedupKey kw = some (normKey e.word) ∧
        kw.weight.getD 1 = e.weight) ∧
      (∀ kw, kw ∈ ks → dedupKey kw = some (normKey e.word) →
        kw.weight.getD 1 ≤ e.weight)) ∧
    (∀ ks : List RawKeyword,
      ((deduplicateKeywords ks).map fun e => normKey e.word).Nodup) ∧
    deduplicateKeywords
        [⟨some "cat".toList, some 2⟩, ⟨some "Cat".toList, some 1.5⟩,
         ⟨some "dog".toList, some 1⟩, ⟨some "cat".toList, some 3⟩] =
      [⟨"cat".toList, 3⟩, ⟨"dog".toList, 1⟩] := by
  have hkeyInv : ∀ ks : List RawKeyword, ∀ p ∈ List.foldl dedupInsert [] ks,
      normKey (Prod.snd p).word = p.1 :=
    fun ks => dedupFold_keyInv ks [] (by simp)
  have hnodupKeys : ∀ ks : List RawKeyword,
      ((List.foldl dedupInsert [] ks).map Prod.fst).Nodup :=
    fun ks => dedupFold_keys_nodup ks [] (by simp)
  refine ⟨?_, ?_, ?_⟩
  · intro ks e he
    have he2 : e ∈ (List.foldl dedupInsert [] ks).map Prod.snd :=
      mem_sortByDesc.1 he
    rcases List.mem_map.1 he2 with ⟨p, hp, hpe⟩
    obtain ⟨k, e0⟩ := p
    cases hpe
    have hkey : normKey e0.word = k := hkeyInv ks (k, e0) hp
    have hfind : assocFind k (List.foldl dedupInsert [] ks) = some e0 :=
      assocFind_mem_nodup (hnodupKeys ks) hp
    have hform : (assocFind k (List.foldl dedupInsert [] ks)).map
        Keyword.weight =
        match effWeights ks k with
        | [] => none
        | w :: ws => some (maxList1 w ws) := by
      have h0 := dedupFold_find ks [] k
      simpa [assocFind] using h0
    rw [hfind] at hform
    cases heff : effWeights ks k with
    | nil =>
      rw [heff] at hform
      simp at hform
    | cons w ws =>
      rw [heff] at hform
      have hw : e0.weight = maxList1 w ws := by
        simpa using hform
      constructor
      · have hmem : maxList1 w ws ∈ w :: ws := maxList1_mem ws w
        rw [← heff, ← hw] at hmem
        rcases mem_effWeights.1 hmem with ⟨kw, hkmem, hkd, hkw⟩
        exact ⟨kw, hkmem, by rw [hkey]; exact hkd, hkw⟩
      · intro kw hkmem hkd
        have hin : kw.weight.getD 1 ∈ effWeights ks k :=
          mem_effWeights.2 ⟨kw, hkmem, by rw [← hkey]; exact hkd, rfl⟩
        rw [heff] at hin
        rw [hw]
        exact le_maxList1 ws w _ hin
  · intro ks
    have hperm := ((sortByDesc_perm (fun kw : Keyword => kw.weight)
      ((List.foldl dedupInsert [] ks).map Prod.snd)).map
        fun e => normKey e.word)
    rw [deduplicateKeywords, hperm.nodup_iff, List.map_map]
    have hcongr : (List.foldl dedupInsert [] ks).map
        ((fun e => normKey e.word) ∘ Prod.snd) =
        (List.foldl dedupInsert [] ks).map Prod.fst :=
      List.map_congr_left fun p hp => hkeyInv ks p hp
    rw [hcongr]
    exact hnodupKeys ks
  · have hcat : normKey ['c', 'a', 't'] = ['c', 'a', 't'] := by decide
    have hCat : normKey ['C', 'a', 't'] = ['c', 'a', 't'] := by decide
    have hdog : normKey ['d', 'o', 'g'] = ['d', 'o', 'g'] := by decide
    have hce : (['c', 'a', 't'] : List Char).isEmpty = false := by decide
    have hde : (['d', 'o', 'g'] : List Char).isEmpty = false := by decide
    have hne1 : ¬(['c', 'a', 't'] : List Char) = ['d', 'o', 'g'] := by decide
    have hne2 : ¬(['d', 'o', 'g'] : List Char) = ['c', 'a', 't'] := by decide
    have hm1 : max (2 : ℚ) (1.5 : ℚ) = 2 := by norm_num [max_def]
    have hm2 : max (2 : ℚ) (3 : ℚ) = 3 := by norm_num [max_def]
    norm_num [deduplicateKeywords, dedupInsert, assocFind, updateFirst,
      sortByDesc, insertByDesc, hcat, hCat, hdog, hce, hde, hne1, hne2,
      hm1, hm2]

/-- Witness for C9: the entry `{cat, 3}` of the concrete output is indeed a
maximum: some input entry attains weight 3 for normalized word `cat`, and
every input entry for `cat` weighs at most 3. -/
theorem C9_witness :
    (∃ kw, kw ∈ [(⟨some "cat".toList, some 2⟩ : RawKeyword),
        ⟨some "Cat".toList, some 1.5⟩, ⟨some "dog".toList, some 1⟩,
        ⟨some "cat".toList, some 3⟩] ∧
      dedupKey kw = some (normKey "cat".toList) ∧
      kw.weight.getD 1 = (3 : ℚ)) ∧
    (∀ kw, kw ∈ [(⟨some "cat".toList, some 2⟩ : RawKeyword),
        ⟨some "Cat".toList, some 1.5⟩, ⟨some "dog".toList, some 1⟩,
        ⟨some "cat".toList, some 3⟩] →
      dedupKey kw = some (normKey "cat".toList) →
      kw.weight.getD 1 ≤ (3 : ℚ)) := by
  have h := C9_deduplicateKeywords.1
    [⟨some "cat".toList, some 2⟩, ⟨some "Cat".toList, some 1.5⟩,
     ⟨some "dog".toList, some 1⟩, ⟨some "cat".toList, some 3⟩]
    ⟨"cat".toList, 3⟩
    (by rw [C9_deduplicateKeywords.2.2]; exact List.mem_cons_self _ _)
  exact h

-- ---------------------------------------------------------------------------
-- Claim C3
-- ---------------------------------------------------------------------------

theorem filter_replicate_eq {α : Type} (p : α → Bool) (n : ℕ) (a : α) :
    (List.replicate n a).filter p = if p a then List.replicate n a else [] := by
  induction n with
  | zero => simp
  | succ n ih =>
    rw [List.replicate_succ, List.filter_cons, ih]
    cases h : p a <;> simp [h, List.replicate_succ]

/-- Counterexample for C3: at `now = 1 year` (epoch), a store of 512 fresh
score-0 records plus one score-15 record aged EXACTLY one year.  The
constant-zero relevance valuation used here is precisely what
`calculateRelevance(mem, [], now, {})` computes on every record of this
store (fresh: `0 - 0`; boundary: `15 - 15`, the time penalty having
saturated at 15 in double precision — see `boundaryMem`).  The code
partition (`ts < now - 1y`) does NOT fail the boundary record, so all 513
records pass and `cleanup` keeps all 513 — including the boundary record,
which is not younger than one year — while the claim ("retains exactly the
memories younger than one year and relevance ≥ -5 when those number at
least 512") predicts exactly the 512 fresh records. -/
theorem C3_counterexample :
    (cleanup (fun _ => 0) MEMORY_TTL_MS boundaryStore).length = 513 ∧
    boundaryMem ∈ cleanup (fun _ => 0) MEMORY_TTL_MS boundaryStore ∧
    (cleanupClaimed (fun _ => 0) MEMORY_TTL_MS boundaryStore).length = 512 ∧
    boundaryMem ∉ cleanupClaimed (fun _ => 0) MEMORY_TTL_MS boundaryStore := by
  have hpf : cleanupPasses (fun _ => 0) MEMORY_TTL_MS freshMem = true := by
    norm_num [cleanupPasses, freshMem, MEMORY_TTL_MS,
      CLEANUP_MIN_SCORE_THRESHOLD]
  have hpb : cleanupPasses (fun _ => 0) MEMORY_TTL_MS boundaryMem = true := by
    norm_num [cleanupPasses, boundaryMem, MEMORY_TTL_MS,
      CLEANUP_MIN_SCORE_THRESHOLD]
  have hcf : cleanupPassesClaimed (fun _ => 0) MEMORY_TTL_MS freshMem = true := by
    norm_num [cleanupPassesClaimed, freshMem, MEMORY_TTL_MS,
      CLEANUP_MIN_SCORE_THRESHOLD]
  have hcb : cleanupPassesClaimed (fun _ => 0) MEMORY_TTL_MS boundaryMem =
      false := by
    norm_num [cleanupPassesClaimed, boundaryMem, MEMORY_TTL_MS,
      CLEANUP_MIN_SCORE_THRESHOLD]
  have hpassCode : boundaryStore.filter
      (cleanupPasses (fun _ => 0) MEMORY_TTL_MS) = boundaryStore := by
    rw [boundaryStore, List.filter_append, filter_replicate_eq, if_pos hpf,
      List.filter_cons, if_pos hpb, List.filter_nil]
  have hpassClaim : boundaryStore.filter
      (cleanupPassesClaimed (fun _ => 0) MEMORY_TTL_MS) =
      List.replicate 512 freshMem := by
    rw [boundaryStore, List.filter_append, filter_replicate_eq, if_pos hcf,
      List.filter_cons, if_neg (by rw [hcb]; exact Bool.false_ne_true),
      List.filter_nil, List.append_nil]
  have hlenStore : boundaryStore.length = 513 := by
    rw [boundaryStore, List.length_append, List.length_replicate]
    rfl
  refine ⟨?_, ?_, ?_, ?_⟩
  · rw [cleanup]
    simp only [hpassCode, hlenStore]
    rw [if_pos (by norm_num [MIN_RETAINED_MEMORIES])]
    exact hlenStore
  · rw [cleanup]
    simp only [hpassCode, hlenStore]
    rw [if_pos (by norm_num [MIN_RETAINED_MEMORIES])]
    rw [boundaryStore]
    exact List.mem_append_right _ (List.mem_singleton.2 rfl)
  · rw [cleanupClaimed]
    simp only [hpassClaim, List.length_replicate]
    rw [if_pos (by norm_num [MIN_RETAINED_MEMORIES])]
    exact List.length_replicate 512 freshMem
  · rw [cleanupClaimed]
    simp only [hpassClaim, List.length_replicate]
    rw [if_pos (by norm_num [MIN_RETAINED_MEMORIES])]
    intro hmem
    have heq := List.eq_of_mem_replicate hmem
    have hne : boundaryMem ≠ freshMem := by decide
    exact hne heq

/-- Claim C3 (amended): `cleanup` retains exactly the records aged AT MOST
one year (the code fails only records strictly older: `ts < now - 1y`) with
relevance at least -5 when those number at least 512; otherwise it keeps all
of them and tops up from the failing records in descending relevance order;
the resulting count is never below `min(n, 512)`, every passing record is
retained, and nothing outside the store is ever introduced. -/
theorem C3_cleanup_amended :
    ∀ (rel : Memory → ℚ) (now : ℤ) (mems : List Memory),
      (MIN_RETAINED_MEMORIES ≤ (mems.filter (cleanupPasses rel now)).length →
        cleanup rel now mems = mems.filter (cleanupPasses rel now)) ∧
      min mems.length MIN_RETAINED_MEMORIES ≤ (cleanup rel now mems).length ∧
      (∀ m ∈ mems, cleanupPasses rel now m = true → m ∈ cleanup rel now mems) ∧
      (∀ m ∈ cleanup rel now mems, m ∈ mems) ∧
      ((mems.filter (cleanupPasses rel now)).length < MIN_RETAINED_MEMORIES →
        cleanup rel now mems =
          mems.filter (cleanupPasses rel now) ++
            (sortByDesc rel (mems.filter fun m => !cleanupPasses rel now m)).take
              (MIN_RETAINED_MEMORIES -
                (mems.filter (cleanupPasses rel now)).length) ∧
        ((sortByDesc rel (mems.filter fun m => !cleanupPasses rel now m)).take
            (MIN_RETAINED_MEMORIES -
              (mems.filter (cleanupPasses rel now)).length)).Pairwise
          (fun a b => rel b ≤ rel a)) := by
  intro rel now mems
  have hsplit := length_filter_add_not (cleanupPasses rel now) mems
  have hsortlen : (sortByDesc rel
      (mems.filter fun m => !cleanupPasses rel now m)).length =
      (mems.filter fun m => !cleanupPasses rel now m).length :=
    (sortByDesc_perm rel _).length_eq
  refine ⟨?_, ?_, ?_, ?_, ?_⟩
  · intro h
    rw [cleanup, if_pos h]
  · by_cases h : MIN_RETAINED_MEMORIES ≤
        (mems.filter (cleanupPasses rel now)).length
    · rw [cleanup, if_pos h]
      have := List.length_filter_le (cleanupPasses rel now) mems
      omega
    · rw [cleanup, if_neg h]
      rw [List.length_append, List.length_take, hsortlen]
      omega
  · intro m hm hpass
    by_cases h : MIN_RETAINED_MEMORIES ≤
        (mems.filter (cleanupPasses rel now)).length
    · rw [cleanup, if_pos h]
      exact List.mem_filter.2 ⟨hm, hpass⟩
    · rw [cleanup, if_neg h]
      exact List.mem_append_left _ (List.mem_filter.2 ⟨hm, hpass⟩)
  · intro m hm
    by_cases h : MIN_RETAINED_MEMORIES ≤
        (mems.filter (cleanupPasses rel now)).length
    · rw [cleanup, if_pos h] at hm
      exact (List.mem_filter.1 hm).1
    · rw [cleanup, if_neg h] at hm
      rcases List.mem_append.1 hm with hm1 | hm2
      · exact (List.mem_filter.1 hm1).1
      · have hm3 := List.mem_of_mem_take hm2
        have hm4 := mem_sortByDesc.1 hm3
        exact (List.mem_filter.1 hm4).1
  · intro h
    constructor
    · rw [cleanup, if_neg (by omega)]
    · exact (pairwise_sortByDesc rel _).sublist (List.take_sublist _ _)

/-- Witness for C3 (amended) at a one-record store: the record passes the
partition test and is retained by `cleanup`. -/
theorem C3_witness :
    freshMem ∈ cleanup (fun _ => 0) MEMORY_TTL_MS [freshMem] :=
  (C3_cleanup_amended (fun _ => 0) MEMORY_TTL_MS [freshMem]).2.2.1 freshMem
    (List.mem_singleton.2 rfl)
    (by norm_num [cleanupPasses, freshMem, MEMORY_TTL_MS,
      CLEANUP_MIN_SCORE_THRESHOLD])

-- ---------------------------------------------------------------------------
-- Claim C1
-- ---------------------------------------------------------------------------

theorem getLast?_mem {α : Type} : ∀ {l : List α} {a : α},
    l.getLast? = some a → a ∈ l := by
  intro l
  induction l with
  | nil => intro a h; cases h
  | cons x rest ih =>
    intro a h
    cases rest with
    | nil =>
      rw [List.getLast?_singleton] at h
      rw [Option.some.inj h]
      exact List.mem_cons_self a []
    | cons y ys =>
      rw [List.getLast?_cons_cons] at h
      exact List.mem_cons_of_mem x (ih h)

theorem swrScan_mem {α : Type} (rv : ℚ) :
    ∀ (l : List (α × ℚ)) (cum : ℚ) (a : α), swrScan rv cum l = some a →
      ∃ w, (a, w) ∈ l := by
  intro l
  induction l with
  | nil => intro cum a h; cases h
  | cons p rest ih =>
    intro cum a h
    obtain ⟨b, w⟩ := p
    rw [swrScan] at h
    by_cases hle : rv ≤ cum + max 0 w
    · rw [if_pos hle] at h
      rw [← Option.some.inj h]
      exact ⟨w, List.mem_cons_self _ _⟩
    · rw [if_neg hle] at h
      rcases ih _ a h with ⟨w2, hw2⟩
      exact ⟨w2, List.mem_cons_of_mem _ hw2⟩

/-- Whatever `selectOneWeightedRandom` returns is one of its items. -/
theorem selectOneWeightedRandom_mem {α : Type} {r : ℚ} {items : List α}
    {weights : List ℚ} {a : α}
    (h : selectOneWeightedRandom r items weights = some a) : a ∈ items := by
  rw [selectOneWeightedRandom] at h
  by_cases hguard :
      (items.isEmpty || !(decide (items.length = weights.length))) = true
  · rw [if_pos hguard] at h
    cases h
  · rw [if_neg hguard] at h
    by_cases htot : ((weights.map fun w => max 0 w).sum ≤ (0 : ℚ))
    · rw [if_pos htot] at h
      by_cases hneg : Rat.floor (r * items.length) < 0
      · rw [if_pos hneg] at h
        cases h
      · rw [if_neg hneg] at h
        exact List.get?_mem h
    · rw [if_neg htot] at h
      cases hscan : swrScan (r * (weights.map fun w => max 0 w).sum) 0
          (items.zip weights) with
      | some b =>
        rw [hscan] at h
        rcases swrScan_mem _ _ _ _ hscan with ⟨w, hw⟩
        rw [← Option.some.inj h]
        exact (List.of_mem_zip hw).1
      | none =>
        rw [hscan] at h
        exact getLast?_mem h

theorem convOk_of_not_tooRecent {now : ℤ} {cid : JSStr} {mem : Memory}
    (h : tooRecentSameConversation now cid mem = false) :
    ConvOk now cid mem := by
  rw [ConvOk]
  rintro ⟨h1, h2⟩
  have htrue : tooRecentSameConversation now cid mem = true := by
    simp [tooRecentSameConversation, h1, h2]
  rw [htrue] at h
  cases h

theorem farApart_of_not_tooClose {mem : Memory} {sel : List ScoredItem}
    (h : tooCloseToSelected mem sel = false) :
    ∀ s ∈ sel, FarApart s.memory mem := by
  intro s hs
  rw [tooCloseToSelected] at h
  have h2 := (List.any_eq_false.1 h) s hs
  rw [FarApart, abs_sub_comm]
  exact not_lt.1 (by simpa using h2)

theorem eligible_unpack {now : ℤ} {cid : JSStr} {prior : List ScoredItem}
    {c : IndexedMemory} (h : flashbackEligible now cid prior c = true) :
    ConvOk now cid c.memory ∧ ∀ s ∈ prior, FarApart s.memory c.memory := by
  rw [flashbackEligible, Bool.and_eq_true] at h
  obtain ⟨h1, h2⟩ := h
  constructor
  · exact convOk_of_not_tooRecent (by simpa using h1)
  · intro s hs
    have h3 : (prior.any fun s =>
        decide (|c.memory.time_stamp - s.memory.time_stamp| <
          MIN_TIME_DIFFERENCE_ANY_MS)) = false := by
      simpa using h2
    have h4 := (List.any_eq_false.1 h3) s hs
    rw [FarApart, abs_sub_comm]
    exact not_lt.1 (by simpa using h4)

/-- Invariant of the greedy top/next selection loop: the picked items stay
mutually far apart and avoid the recent same-conversation records, and
top ++ next stays a permutation of the in-order selection list. -/
theorem selectRelevant_invariant (now : ℤ) (cid : JSStr) :
    ∀ (cands top next allSel : List ScoredItem),
      (top ++ next).Perm allSel →
      allSel.Pairwise (fun a b => FarApart a.memory b.memory) →
      (∀ s ∈ allSel, ConvOk now cid s.memory) →
      ((selectRelevant now cid cands top next allSel).1 ++
          (selectRelevant now cid cands top next allSel).2.1).Perm
        (selectRelevant now cid cands top next allSel).2.2 ∧
      (selectRelevant now cid cands top next allSel).2.2.Pairwise
        (fun a b => FarApart a.memory b.memory) ∧
      (∀ s ∈ (selectRelevant now cid cands top next allSel).2.2,
        ConvOk now cid s.memory) := by
  intro cands
  induction cands with
  | nil =>
    intro top next allSel hperm hpw hconv
    exact ⟨hperm, hpw, hconv⟩
  | cons c rest ih =>
    intro top next allSel hperm hpw hconv
    rw [selectRelevant]
    by_cases hfull : MAX_TOP_RELEVANT ≤ top.length ∧
        MAX_NEXT_RELEVANT ≤ next.length
    · rw [if_pos hfull]
      exact ⟨hperm, hpw, hconv⟩
    · rw [if_neg hfull]
      by_cases hrecent : tooRecentSameConversation now cid c.memory = true
      · rw [if_pos hrecent]
        exact ih top next allSel hperm hpw hconv
      · rw [if_neg hrecent]
        by_cases hclose : tooCloseToSelected c.memory allSel = true
        · rw [if_pos hclose]
          exact ih top next allSel hperm hpw hconv
        · rw [if_neg hclose]
          have hcOk : ConvOk now cid c.memory :=
            convOk_of_not_tooRecent (Bool.eq_false_iff.2 hrecent)
          have hfarAll : ∀ s ∈ allSel, FarApart s.memory c.memory :=
            farApart_of_not_tooClose (Bool.eq_false_iff.2 hclose)
          have hpw2 : (allSel ++ [c]).Pairwise
              (fun a b => FarApart a.memory b.memory) := by
            rw [List.pairwise_append]
            refine ⟨hpw, List.pairwise_singleton _ c, ?_⟩
            intro a ha b hb
            rw [List.mem_singleton.1 hb]
            exact hfarAll a ha
          have hconv2 : ∀ s ∈ allSel ++ [c], ConvOk now cid s.memory := by
            intro s hs
            rcases List.mem_append.1 hs with hs1 | hs2
            · exact hconv s hs1
            · rw [List.mem_singleton.1 hs2]
              exact hcOk
          by_cases htop : top.length < MAX_TOP_RELEVANT
          · rw [if_pos htop]
            have hstep : ((top ++ [c]) ++ next).Perm ((top ++ next) ++ [c]) := by
              rw [List.append_assoc, List.append_assoc]
              exact List.Perm.append_left top List.perm_append_comm
            exact ih (top ++ [c]) next (allSel ++ [c])
              (hstep.trans (hperm.append_right [c])) hpw2 hconv2
          · rw [if_neg htop]
            by_cases hnext : next.length < MAX_NEXT_RELEVANT
            · rw [if_pos hnext]
              have heq : top ++ (next ++ [c]) = (top ++ next) ++ [c] :=
                (List.append_assoc top next [c]).symm
              exact ih top (next ++ [c]) (allSel ++ [c])
                (heq ▸ hperm.append_right [c]) hpw2 hconv2
            · rw [if_neg hnext]
              exact ih top next allSel hperm hpw hconv

/-- Invariant of the random-flashback loop: every drawn item is far from all
prior picks and avoids recent same-conversation records. -/
theorem flashbackLoop_invariant (rel : Memory → ℚ) (rand : ℕ → ℚ) (now : ℤ)
    (cid : JSStr) :
    ∀ (fuel k : ℕ) (pool : List IndexedMemory) (allSel flash : List ScoredItem),
      (allSel ++ flash).Pairwise (fun a b => FarApart a.memory b.memory) →
      (∀ s ∈ flash, ConvOk now cid s.memory) →
      (allSel ++ flashbackLoop rel rand now cid fuel k pool allSel flash).Pairwise
        (fun a b => FarApart a.memory b.memory) ∧
      (∀ s ∈ flashbackLoop rel rand now cid fuel k pool allSel flash,
        ConvOk now cid s.memory) := by
  intro fuel
  induction fuel with
  | zero =>
    intro k pool allSel flash hpw hconv
    exact ⟨hpw, hconv⟩
  | succ fuel ih =>
    intro k pool allSel flash hpw hconv
    rw [flashbackLoop]
    by_cases hpool : pool.isEmpty = true
    · rw [if_pos hpool]
      exact ⟨hpw, hconv⟩
    · rw [if_neg hpool]
      by_cases hcand : (pool.filter
          (flashbackEligible now cid (allSel ++ flash))).isEmpty = true
      · rw [if_pos hcand]
        exact ⟨hpw, hconv⟩
      · rw [if_neg hcand]
        cases hsel : selectOneWeightedRandom (rand k)
            (pool.filter (flashbackEligible now cid (allSel ++ flash)))
            ((pool.filter (flashbackEligible now cid (allSel ++ flash))).map
              fun item => randomWeight now item.memory) with
        | none =>
          exact ⟨hpw, hconv⟩
        | some item =>
          have hmem := selectOneWeightedRandom_mem hsel
          have helig := (List.mem_filter.1 hmem).2
          obtain ⟨hcOk, hfar⟩ := eligible_unpack helig
          have hpw2 : (allSel ++ (flash ++
              [(⟨item.memory, rel item.memory, item.index⟩ : ScoredItem)])).Pairwise
              (fun a b => FarApart a.memory b.memory) := by
            rw [← List.append_assoc, List.pairwise_append]
            refine ⟨hpw, List.pairwise_singleton _ _, ?_⟩
            intro a ha b hb
            rw [List.mem_singleton.1 hb]
            exact hfar a ha
          have hconv2 : ∀ s ∈ flash ++
              [(⟨item.memory, rel item.memory, item.index⟩ : ScoredItem)],
              ConvOk now cid s.memory := by
            intro s hs
            rcases List.mem_append.1 hs with hs1 | hs2
            · exact hconv s hs1
            · rw [List.mem_singleton.1 hs2]
              exact hcOk
          exact ih (k + 1)
            (pool.filter fun p => !(decide (p.index = item.index)))
            allSel (flash ++ [⟨item.memory, rel item.memory, item.index⟩])
            hpw2 hconv2

/-- Claim C1: for every store, every relevance valuation and every sequence
of random draws, the three result lists of `searchRelevantMemories` taken
together are pairwise at least 10 minutes apart in timestamp, and no
returned memory belongs to the queried conversation while being younger
than 20 minutes at search time. -/
theorem C1_search_diversity :
    ∀ (rel : Memory → ℚ) (rand : ℕ → ℚ) (now : ℤ) (conversationId : JSStr)
      (mems : List Memory),
      (((searchRelevantMemories rel rand now conversationId mems).1.topRelevant ++
        (searchRelevantMemories rel rand now conversationId mems).1.nextRelevant ++
        (searchRelevantMemories rel rand now conversationId mems).1.randomFlashback).Pairwise
          fun a b => FarApart a.memory b.memory) ∧
      ∀ s ∈ (searchRelevantMemories rel rand now conversationId mems).1.topRelevant ++
          (searchRelevantMemories rel rand now conversationId mems).1.nextRelevant ++
          (searchRelevantMemories rel rand now conversationId mems).1.randomFlashback,
        ConvOk now conversationId s.memory := by
  intro rel rand now conversationId mems
  have hsymm : ∀ {x y : ScoredItem},
      FarApart x.memory y.memory → FarApart y.memory x.memory := by
    intro x y h
    rw [FarApart, abs_sub_comm]
    exact h
  obtain ⟨hperm, hpwA, hconvA⟩ := selectRelevant_invariant now conversationId
    (sortByDesc (fun item => item.relevance)
      (((mems.enum).map fun p => (⟨p.2, rel p.2, p.1⟩ : ScoredItem)).filter
        fun item => decide (RELEVANCE_THRESHOLD ≤ item.relevance)))
    [] [] [] (List.Perm.refl []) (List.Pairwise.nil) (by intro s hs; cases hs)
  obtain ⟨hpwF, hconvF⟩ := flashbackLoop_invariant rel rand now conversationId
    MAX_RANDOM_FLASHBACK 0
    ((((mems.enum).map fun p => (⟨p.2, p.1⟩ : IndexedMemory)).filter
      fun item =>
        !(((selectRelevant now conversationId
            (sortByDesc (fun item => item.relevance)
              (((mems.enum).map fun p => (⟨p.2, rel p.2, p.1⟩ : ScoredItem)).filter
                fun item => decide (RELEVANCE_THRESHOLD ≤ item.relevance)))
            [] [] []).2.2.map fun s => s.index).contains item.index)))
    ((selectRelevant now conversationId
        (sortByDesc (fun item => item.relevance)
          (((mems.enum).map fun p => (⟨p.2, rel p.2, p.1⟩ : ScoredItem)).filter
            fun item => decide (RELEVANCE_THRESHOLD ≤ item.relevance)))
        [] [] []).2.2)
    [] (by rw [List.append_nil]; exact hpwA) (by intro s hs; cases hs)
  constructor
  · rw [searchRelevantMemories]
    refine ((hperm.append_right _).pairwise_iff fun h => hsymm h).2 ?_
    exact hpwF
  · rw [searchRelevantMemories]
    intro s hs
    rcases List.mem_append.1 hs with hs1 | hs2
    · have hs3 := hperm.mem_iff.1 hs1
      exact hconvA s hs3
    · exact hconvF s hs2

/-- Witness for C1 at a concrete search (constant relevance 10, constant
draw 1/2, a two-record store): the instantiated diversity and
conversation-age guarantees. -/
theorem C1_witness :
    (((searchRelevantMemories (fun _ => 10) (fun _ => 1/2) 0 "c".toList
        [⟨"a".toList, [], 0, "c".toList, 0, []⟩,
         ⟨"b".toList, [], 0, "d".toList, 0, []⟩]).1.topRelevant ++
      (searchRelevantMemories (fun _ => 10) (fun _ => 1/2) 0 "c".toList
        [⟨"a".toList, [], 0, "c".toList, 0, []⟩,
         ⟨"b".toList, [], 0, "d".toList, 0, []⟩]).1.nextRelevant ++
      (searchRelevantMemories (fun _ => 10) (fun _ => 1/2) 0 "c".toList
        [⟨"a".toList, [], 0, "c".toList, 0, []⟩,
         ⟨"b".toList, [], 0, "d".toList, 0, []⟩]).1.randomFlashback).Pairwise
        fun a b => FarApart a.memory b.memory) ∧
    ∀ s ∈ (searchRelevantMemories (fun _ => 10) (fun _ => 1/2) 0 "c".toList
          [⟨"a".toList, [], 0, "c".toList, 0, []⟩,
           ⟨"b".toList, [], 0, "d".toList, 0, []⟩]).1.topRelevant ++
        (searchRelevantMemories (fun _ => 10) (fun _ => 1/2) 0 "c".toList
          [⟨"a".toList, [], 0, "c".toList, 0, []⟩,
           ⟨"b".toList, [], 0, "d".toList, 0, []⟩]).1.nextRelevant ++
        (searchRelevantMemories (fun _ => 10) (fun _ => 1/2) 0 "c".toList
          [⟨"a".toList, [], 0, "c".toList, 0, []⟩,
           ⟨"b".toList, [], 0, "d".toList, 0, []⟩]).1.randomFlashback,
      ConvOk 0 "c".toList s.memory :=
  C1_search_diversity (fun _ => 10) (fun _ => 1/2) 0 "c".toList
    [⟨"a".toList, [], 0, "c".toList, 0, []⟩,
     ⟨"b".toList, [], 0, "d".toList, 0, []⟩]

end MemServer
